import Mathlib

/-!
Verification of the golumn migration driver (`Migrator.check`, `Migrator.Up`,
`Migrator.Down`) and its version-store contract, as a shallow embedding.

The store is modelled as a record of state-transforming operations over an
abstract state type `ω` (one field per method of the Go `Store` interface).
Go errors are modelled by `GoError`; the driver dispatches only on the
`ErrInitialVersion` sentinel, exactly as the source does with `errors.Is`.
The driver's returned error is modelled by `DriverErr`, one constructor per
`fmt.Errorf` site in the source, so that the failing phase is recoverable
from the result.

Versions are `int64` in the source; the driver performs no arithmetic on
them (comparisons only), so `Int` is a faithful embedding (no overflow can
occur).  `Migrator.Down`'s revert loop has no termination guarantee in the
source, so it is embedded with explicit fuel: a `none` overall result means
the fuel was exhausted (the Go loop would still be running).
-/

/-- Go error values, as far as the driver can distinguish them: the two
comparable sentinels `ErrLocked` and `ErrInitialVersion`, and everything
else.  `errors.Is(err, ErrInitialVersion)` becomes equality with
`GoError.initialVersion`. -/
inductive GoError where
  | initialVersion
  | locked
  | other (msg : String)
deriving DecidableEq, Repr

/-- The `Store` interface (version-store contract): each operation takes a
state and returns its Go results together with the successor state.
`version` returns both an `int64` and an `error`, as in Go — the pair is
always produced, which matters because the driver assigns both components.
The `DB()` accessor is not modelled separately: migration actions receive
the whole state `ω` (the database is part of the store's world). -/
structure Store (ω : Type) where
  init    : ω → Option GoError × ω
  lock    : ω → Option GoError × ω
  release : ω → Option GoError × ω
  version : ω → (Int × Option GoError) × ω
  insert  : Int → ω → Option GoError × ω
  remove  : Int → ω → Option GoError × ω

/-- A migration unit: `Version` plus the two optional actions (`nil`
function pointers become `none`).  An action borrows the world (it receives
the database handle) and returns a Go error or success. -/
structure Migration (ω : Type) where
  version  : Int
  upFunc   : Option (ω → Option GoError × ω)
  downFunc : Option (ω → Option GoError × ω)

/-- Modelled from the spec: the body of the `Migration.Up` method is not in
the provided sources (only its tests are).  Spec §4.1: it fails with
"migration <V>: missing up func" when the action is absent, otherwise
forwards to the action and returns its outcome verbatim. -/
def Migration.Up {ω : Type} (mg : Migration ω) (w : ω) : Option GoError × ω :=
  match mg.upFunc with
  | none => (some (.other ("migration " ++ toString mg.version ++ ": missing up func")), w)
  | some f => f w

/-- Modelled from the spec: the body of the `Migration.Down` method is not
in the provided sources (only its tests are).  Spec §4.1: it fails with
"migration <V>: missing down func" when the action is absent, otherwise
forwards to the action and returns its outcome verbatim. -/
def Migration.Down {ω : Type} (mg : Migration ω) (w : ω) : Option GoError × ω :=
  match mg.downFunc with
  | none => (some (.other ("migration " ++ toString mg.version ++ ": missing down func")), w)
  | some f => f w

/-- Validation errors produced by `Migrator.check`, one constructor per
`fmt.Errorf` in the source. -/
inductive CheckErr where
  | negative (v : Int)
  | misordered (v prev : Int)
  | duplicate (v : Int)
deriving DecidableEq, Repr

/-- Errors returned by `Migrator.Up` / `Migrator.Down`, one constructor per
wrapping site in the source.  `joined p e` models
`errors.Join(err, wrap(releaseErr))` when a primary error `p` was already
pending; `releaseFailed e` models the join when the primary error was nil. -/
inductive DriverErr where
  | invalidSources (e : CheckErr)
  | initFailed (e : GoError)
  | lockFailed (e : GoError)
  | versionFailed (e : GoError)
  | missingTarget (v : Int)
  | missingRemote (v : Int)
  | applyFailed (v : Int) (e : GoError)
  | insertFailed (v : Int) (e : GoError)
  | revertFailed (v : Int) (e : GoError)
  | removeFailed (v : Int) (e : GoError)
  | releaseFailed (e : GoError)
  | joined (p : DriverErr) (e : GoError)
deriving DecidableEq, Repr

/-- The migrator configuration: store, sources, and the policy flag.  The
optional log/debug writers are omitted: their output is side-effectful only
and never read back by the driver. -/
structure Migrator (ω : Type) where
  store   : Store ω
  sources : List (Migration ω)
  holdLockOnFailure : Bool

/-- Loop body of `Migrator.check`: `prev` starts at `-1`, `seen` is the set
of versions admitted so far (a Go map, modelled as a list with membership).
Rejects a negative version, a version below `prev`, and a duplicate, in
that order — exactly the source's three `if`s. -/
def checkAux {ω : Type} : List (Migration ω) → Int → List Int → Option CheckErr
  | [], _, _ => none
  | mg :: rest, prev, seen =>
    if mg.version < 0 then some (.negative mg.version)
    else if mg.version < prev then some (.misordered mg.version prev)
    else if seen.contains mg.version then some (.duplicate mg.version)
    else checkAux rest mg.version (mg.version :: seen)

/-- `Migrator.check`: scan the sources once with `prev = -1` and an empty
seen-set. -/
def Migrator.check {ω : Type} (m : Migrator ω) : Option CheckErr :=
  checkAux m.sources (-1) []

/-- Result of `slices.BinarySearchFunc(sources, t, migrationCmpFunc)`,
by its documented semantics on a sorted slice: the insertion point is the
first index whose element is `≥ t` (the slice length if none), and the
element is found iff the element at that index compares equal.  Every call
site in the driver runs after `check` has succeeded, so the slice is
sorted there.  The linear `findIdx` below computes exactly that result. -/
def binarySearchFunc (vs : List Int) (t : Int) : Nat × Bool :=
  let i := vs.findIdx (fun v => decide (t ≤ v))
  (i, decide (vs.get? i = some t))

/-- The deferred-release epilogue shared by `Up` and `Down`: when
`shouldRelease` is set, call `Release` and join a release failure onto the
primary error (`errors.Join` with a nil primary yields the release error
alone). -/
def finishRelease {ω : Type} (S : Store ω) (shouldRelease : Bool)
    (primary : Option DriverErr) (w : ω) : Option DriverErr × ω :=
  if shouldRelease then
    match S.release w with
    | (none, w') => (primary, w')
    | (some e, w') =>
      match primary with
      | none => (some (.releaseFailed e), w')
      | some p => (some (.joined p e), w')
  else (primary, w)

/-- The second loop of `Migrator.Up`: iterate over all sources, and for each
one satisfying `remoteVersion < version ≤ to`, run its up action and then
`Insert` its version, stopping at the first failure. -/
def upApply {ω : Type} (S : Store ω) (remoteVersion tgt : Int) :
    List (Migration ω) → ω → Option DriverErr × ω
  | [], w => (none, w)
  | mg :: rest, w =>
    if mg.version > remoteVersion ∧ mg.version ≤ tgt then
      match mg.Up w with
      | (some e, w') => (some (.applyFailed mg.version e), w')
      | (none, w') =>
        match S.insert mg.version w' with
        | (some e, w'') => (some (.insertFailed mg.version e), w'')
        | (none, w'') => upApply S remoteVersion tgt rest w''
    else upApply S remoteVersion tgt rest w

/-- Tail of `Migrator.Up` after `Lock` has succeeded: the plan is the
filter of the sources; an empty plan returns success (releasing); otherwise
the `HoldLockOnFailure` gate clears `shouldRelease` before execution, and a
completed loop re-sets it.  `remoteVersion` is whatever the `Version` call
returned — the source's `-1` initializer is dead, being overwritten by the
tuple assignment `remoteVersion, err = m.Store.Version(ctx)` even when the
error is `ErrInitialVersion`. -/
def upMain {ω : Type} (m : Migrator ω) (remoteVersion tgt : Int) (w : ω) :
    Option DriverErr × ω :=
  let toApply := m.sources.filter
    (fun mg => decide (mg.version > remoteVersion) && decide (mg.version ≤ tgt))
  if toApply.isEmpty then finishRelease m.store true none w
  else
    match upApply m.store remoteVersion tgt m.sources w with
    | (some e, w') => finishRelease m.store (!m.holdLockOnFailure) (some e) w'
    | (none, w') => finishRelease m.store true none w'

/-- `Migrator.Up`: check, `Init`, `Lock`, deferred release, `Version`
(an `ErrInitialVersion` is swallowed, any other error is fatal), then the
plan phase (`upMain`). -/
def Migrator.Up {ω : Type} (m : Migrator ω) (tgt : Int) (w : ω) :
    Option DriverErr × ω :=
  match m.check with
  | some e => (some (.invalidSources e), w)
  | none =>
    match m.store.init w with
    | (some e, w₁) => (some (.initFailed e), w₁)
    | (none, w₁) =>
      match m.store.lock w₁ with
      | (some e, w₂) => (some (.lockFailed e), w₂)
      | (none, w₂) =>
        match m.store.version w₂ with
        | ((v, some e), w₃) =>
          if e = .initialVersion then upMain m v tgt w₃
          else finishRelease m.store true (some (.versionFailed e)) w₃
        | ((v, none), w₃) => upMain m v tgt w₃

/-- How one run of `Migrator.Down`'s revert loop ended.  `broke` is the
normal exit (`remoteVersion ≤ to`), after which the source re-sets
`shouldRelease` before returning; `earlySuccess` is the in-loop
`return nil` on an `ErrInitialVersion` re-read, which does *not* re-set it;
`fuelOut` means the embedding's fuel ran out (the Go loop would still be
running). -/
inductive LoopExit where
  | broke
  | earlySuccess
  | failed (e : DriverErr)
  | fuelOut
deriving DecidableEq, Repr

/-- The revert loop of `Migrator.Down`: while `remoteVersion > to`, locate
the unit whose version equals `remoteVersion` by binary search, run its
down action, `Remove` its version, and re-read `Version` (an
`ErrInitialVersion` re-read returns success early). -/
def downLoop {ω : Type} (S : Store ω) (srcs : List (Migration ω)) (tgt : Int) :
    Nat → Int → ω → LoopExit × ω
  | fuel, remoteVersion, w =>
    if remoteVersion ≤ tgt then (.broke, w)
    else
      match fuel with
      | 0 => (.fuelOut, w)
      | fuel' + 1 =>
        let (idx, ok) := binarySearchFunc (srcs.map (fun mg => mg.version)) remoteVersion
        if !ok then (.failed (.missingRemote remoteVersion), w)
        else
          match srcs.get? idx with
          | none => (.failed (.missingRemote remoteVersion), w)
          | some mg =>
            match mg.Down w with
            | (some e, w₁) => (.failed (.revertFailed mg.version e), w₁)
            | (none, w₁) =>
              match S.remove mg.version w₁ with
              | (some e, w₂) => (.failed (.removeFailed mg.version e), w₂)
              | (none, w₂) =>
                match S.version w₂ with
                | ((v, none), w₃) => downLoop S srcs tgt fuel' v w₃
                | ((_, some e), w₃) =>
                  if e = .initialVersion then (.earlySuccess, w₃)
                  else (.failed (.versionFailed e), w₃)

/-- `Migrator.Down`: check, target-existence guard (bypassed by `to = -1`),
`Init`, `Lock`, deferred release, first `Version` read (an
`ErrInitialVersion` returns success immediately, before the hold gate),
the `HoldLockOnFailure` gate, then the revert loop.  After a `broke` exit
the source re-sets `shouldRelease = true`; after an `earlySuccess` or
`failed` exit `shouldRelease` is still `!holdLockOnFailure`.  The overall
`none` means the fuel ran out. -/
def Migrator.Down {ω : Type} (m : Migrator ω) (tgt : Int) (fuel : Nat) (w : ω) :
    Option (Option DriverErr × ω) :=
  match m.check with
  | some e => some (some (.invalidSources e), w)
  | none =>
    let (_, ok) := binarySearchFunc (m.sources.map (fun mg => mg.version)) tgt
    if !ok ∧ tgt ≠ -1 then some (some (.missingTarget tgt), w)
    else
      match m.store.init w with
      | (some e, w₁) => some (some (.initFailed e), w₁)
      | (none, w₁) =>
        match m.store.lock w₁ with
        | (some e, w₂) => some (some (.lockFailed e), w₂)
        | (none, w₂) =>
          match m.store.version w₂ with
          | ((_, some e), w₃) =>
            if e = .initialVersion then some (finishRelease m.store true none w₃)
            else some (finishRelease m.store true (some (.versionFailed e)) w₃)
          | ((v, none), w₃) =>
            match downLoop m.store m.sources tgt fuel v w₃ with
            | (.broke, w₄) => some (finishRelease m.store true none w₄)
            | (.earlySuccess, w₄) =>
              some (finishRelease m.store (!m.holdLockOnFailure) none w₄)
            | (.failed e, w₄) =>
              some (finishRelease m.store (!m.holdLockOnFailure) (some e) w₄)
            | (.fuelOut, _) => none

/-- State of the canonical in-memory store, mirroring the test harness's
`fakeStore`: a stack of versions, the log of applied and reverted versions,
and the advisory-lock flag. -/
structure FakeState where
  versions : List Int
  applied  : List Int
  reverted : List Int
  locked   : Bool
deriving DecidableEq, Repr

/-- The canonical store (the test harness's default behaviours):
`Init` succeeds; `Lock` fails with `ErrLocked` when already locked;
`Release` clears the flag; `Version` returns the top of the stack, or
`(0, ErrInitialVersion)` when the stack is empty; `Insert` pushes;
`Remove` pops the top (whatever its argument) and logs the argument as
reverted, succeeding as a no-op on an empty stack. -/
def fakeStore : Store FakeState where
  init := fun s => (none, s)
  lock := fun s =>
    if s.locked then (some .locked, s) else (none, { s with locked := true })
  release := fun s => (none, { s with locked := false })
  version := fun s =>
    match s.versions.getLast? with
    | none => ((0, some .initialVersion), s)
    | some v => ((v, none), s)
  insert := fun v s =>
    (none, { s with versions := s.versions ++ [v], applied := s.applied ++ [v] })
  remove := fun v s =>
    if s.versions.isEmpty then (none, s)
    else (none, { s with versions := s.versions.dropLast,
                         reverted := s.reverted ++ [v] })

/-- A migration whose two actions succeed without touching the state, as
the test harness's `noopMigration`. -/
def noopMigration (v : Int) : Migration FakeState :=
  ⟨v, some (fun w => (none, w)), some (fun w => (none, w))⟩

/-- A migrator over the canonical store with no-op migrations at the given
versions. -/
def mkFake (vs : List Int) (hold : Bool) : Migrator FakeState :=
  ⟨fakeStore, vs.map noopMigration, hold⟩

/-- An unlocked canonical store populated with the given version stack. -/
def fakeInit (vs : List Int) : FakeState :=
  ⟨vs, [], [], false⟩

/-- The plan predicate of `Up` with current version `rv` and target `tg`. -/
def planPred (rv tg : Int) : Int → Bool :=
  fun v => decide (v > rv) && decide (v ≤ tg)

/-- The remote version `Up` computes on the canonical store: the top of the
stack, or the 0 returned alongside `ErrInitialVersion` when empty. -/
def fakeRemote (s : FakeState) : Int :=
  (s.versions.getLast?).getD 0

/-- A migration whose up action fails, as injected by the test's `up_err`
rows. -/
def failUpMigration (v : Int) : Migration FakeState :=
  ⟨v, some (fun w => (some (.other "test up migration error"), w)),
     some (fun w => (none, w))⟩

/-- Units at the given versions, the one at `bad` having a failing up
action, the rest no-ops. -/
def migsBadUp (bad : Int) (vs : List Int) : List (Migration FakeState) :=
  vs.map (fun v => if v = bad then failUpMigration v else noopMigration v)

/-- The canonical store with `Insert` failing on version `bad`, as injected
by the test's `insert_err` row. -/
def fakeStoreBadInsert (bad : Int) : Store FakeState :=
  { fakeStore with insert := fun v s =>
      if v = bad then (some (.other "test insert error"), s)
      else fakeStore.insert v s }

/-- The store-behaviour hypothesis the driver never checks: a `Version`
read performed right after a successful `Remove` of `v` reports, when it
reports a value at all, a value strictly below `v`. -/
def RemoveDecreases {ω : Type} (S : Store ω) : Prop :=
  ∀ (v : Int) (w w₁ : ω), S.remove v w = (none, w₁) →
    ∀ (rv : Int) (w₂ : ω), S.version w₁ = ((rv, none), w₂) → rv < v

/-- A store that always reports version 1 with a no-op `Remove`, violating
`RemoveDecreases` — the revert loop re-selects unit 1 forever. -/
def stuckStore : Store Unit where
  init := fun w => (none, w)
  lock := fun w => (none, w)
  release := fun w => (none, w)
  version := fun w => ((1, none), w)
  insert := fun _ w => (none, w)
  remove := fun _ w => (none, w)

/-- The single-unit migrator over `stuckStore`. -/
def stuckMigrator : Migrator Unit :=
  ⟨stuckStore, [⟨1, some (fun w => (none, w)), some (fun w => (none, w))⟩], false⟩

/-- A store satisfying `RemoveDecreases`: its state is the current version,
`Remove v` drives it to `v - 1`, and `Version` reports it when nonnegative. -/
def decStore : Store Int where
  init := fun w => (none, w)
  lock := fun w => (none, w)
  release := fun w => (none, w)
  version := fun w =>
    if w < 0 then ((0, some .initialVersion), w) else ((w, none), w)
  insert := fun v _ => (none, v)
  remove := fun v _ => (none, v - 1)

/-- Store events, one per store call, recording the call's success — ghost
instrumentation for reasoning about the driver's lock discipline. -/
inductive Ev where
  | initE (ok : Bool)
  | lockE (ok : Bool)
  | releaseE (ok : Bool)
  | versionE (v : Int) (e : Option GoError)
  | insertE (v : Int) (ok : Bool)
  | removeE (v : Int) (ok : Bool)
deriving DecidableEq, Repr

/-- The same store, with every call additionally appending its event to a
trace threaded through the state.  Running the unchanged driver over
`traced S` yields exactly the store-call history of a run over `S`. -/
def traced {ω : Type} (S : Store ω) : Store (ω × List Ev) where
  init := fun p =>
    ((S.init p.1).1, ((S.init p.1).2, p.2 ++ [.initE (S.init p.1).1.isNone]))
  lock := fun p =>
    ((S.lock p.1).1, ((S.lock p.1).2, p.2 ++ [.lockE (S.lock p.1).1.isNone]))
  release := fun p =>
    ((S.release p.1).1,
     ((S.release p.1).2, p.2 ++ [.releaseE (S.release p.1).1.isNone]))
  version := fun p =>
    ((S.version p.1).1,
     ((S.version p.1).2,
      p.2 ++ [.versionE (S.version p.1).1.1 (S.version p.1).1.2]))
  insert := fun v p =>
    ((S.insert v p.1).1,
     ((S.insert v p.1).2, p.2 ++ [.insertE v (S.insert v p.1).1.isNone]))
  remove := fun v p =>
    ((S.remove v p.1).1,
     ((S.remove v p.1).2, p.2 ++ [.removeE v (S.remove v p.1).1.isNone]))

/-- Lift a migration action to the traced state: it acts on the underlying
state and leaves the trace alone (actions are not store calls). -/
def liftAct {ω : Type} (f : ω → Option GoError × ω) :
    ω × List Ev → Option GoError × (ω × List Ev) :=
  fun p => ((f p.1).1, ((f p.1).2, p.2))

/-- Lift a migration unit to the traced state. -/
def liftMig {ω : Type} (mg : Migration ω) : Migration (ω × List Ev) :=
  ⟨mg.version, mg.upFunc.map liftAct, mg.downFunc.map liftAct⟩

/-- Lock-held state after a trace: a successful lock acquires, a successful
release frees, everything else leaves it alone.  The starting value is the
invocation's own holding (false at entry). -/
def heldStep (b : Bool) (ev : Ev) : Bool :=
  match ev with
  | .lockE true => true
  | .releaseE true => false
  | _ => b

def heldAfter (b : Bool) (t : List Ev) : Bool := t.foldl heldStep b

/-- Events that cannot change the lock-held state. -/
def lockNeutral (ev : Ev) : Bool :=
  match ev with
  | .lockE _ => false
  | .releaseE _ => false
  | _ => true

/-- Error kinds of `Up` arising before the plan-execution phase. -/
def isPreUpErr : DriverErr → Bool
  | .invalidSources _ | .initFailed _ | .lockFailed _ | .versionFailed _ => true
  | _ => false

/-- Error kinds of `Up` arising during plan execution. -/
def isPostUpErr : DriverErr → Bool
  | .applyFailed _ _ | .insertFailed _ _ => true
  | _ => false

/-- Error kinds of `Down` arising before the revert loop (the version-read
kind is handled separately, as it occurs on both sides of the gate). -/
def isPreDownErr : DriverErr → Bool
  | .invalidSources _ | .missingTarget _ | .initFailed _ | .lockFailed _ => true
  | _ => false

/-- Error kinds of `Down` arising inside the revert loop. -/
def isPostDownErr : DriverErr → Bool
  | .missingRemote _ | .revertFailed _ _ | .removeFailed _ _ => true
  | _ => false

example : (mkFake [1,2,3] false).Up 3 (fakeInit []) =
    (none, ⟨[1,2,3], [1,2,3], [], false⟩) := by decide

example : (mkFake [1,2,3] false).Up 3 (fakeInit [1]) =
    (none, ⟨[1,2,3], [2,3], [], false⟩) := by decide

example : (mkFake [3,1,2] false).Up 3 (fakeInit []) =
    (some (.invalidSources (.misordered 1 3)), ⟨[], [], [], false⟩) := by decide

example : (mkFake [1,2,3] false).Up 2 (fakeInit [1,2,3]) =
    (none, ⟨[1,2,3], [], [], false⟩) := by decide

example : (mkFake [1,2,3] false).Down 1 9 (fakeInit [1,2,3]) =
    some (none, ⟨[1], [], [3,2], false⟩) := by decide

example : (mkFake [1,2,3] false).Down (-1) 9 (fakeInit [1,2,3]) =
    some (none, ⟨[], [], [3,2,1], false⟩) := by decide

example : (mkFake [1,2,3] false).Down 5 9 (fakeInit [1,2,3]) =
    some (some (.missingTarget 5), ⟨[1,2,3], [], [], false⟩) := by decide

example : (mkFake [1,2,3] false).Down 1 9 (fakeInit [1,2,5]) =
    some (some (.missingRemote 5), ⟨[1,2,5], [], [], false⟩) := by decide

example : (mkFake [1,2,3] false).Down 1 9 (fakeInit []) =
    some (none, ⟨[], [], [], false⟩) := by decide

/-- C1: the claim says every successful `Up`/`Down` releases the advisory
lock regardless of `HoldLockOnFailure`, in particular a `Down` that ends
successfully because a mid-loop `Version` re-read reports
`ErrInitialVersion`.  The code violates this: with `HoldLockOnFailure`
set, `Down (-1)` on a store holding version 1 succeeds (nil error) via the
in-loop `ErrInitialVersion` return, which is reached after the hold gate
cleared `shouldRelease` and does not re-set it, so `Release` is never
called and the lock is still held on return. -/
theorem C1_down_success_retains_lock :
    (mkFake [1] true).Down (-1) 3 (fakeInit [1]) =
      some (none, ⟨[], [], [1], true⟩) ∧
    (⟨[], [], [1], true⟩ : FakeState).locked = true := by decide

/-- C2: the claim says that when `Store.Version` fails with
`ErrInitialVersion`, `Up` plans against current version −1, for every store
and whatever integer `Version` returned alongside the error, so a
version-0 unit qualifies with target 0 on an empty store.  The code
violates this: the tuple assignment `remoteVersion, err = m.Store.Version(ctx)`
overwrites the dead `-1` initializer with the returned integer (0 for the
canonical stores), so with an empty store, one unit of version 0 and
target 0 the plan predicate `0 > 0 ∧ 0 ≤ 0` is false and nothing is
applied. -/
theorem C2_version_zero_unit_not_applied :
    (mkFake [0] false).Up 0 (fakeInit []) = (none, ⟨[], [], [], false⟩) ∧
    (⟨[], [], [], false⟩ : FakeState).applied = [] := by decide

/-- C3 counterexample: with the store already at version 3 (stack
`[1,2,3]`), units `[1,2,3]` and target 2, `Up` succeeds applying nothing
(the test row `target_below_current_version`), and a subsequent `Version`
returns 3 — neither the largest unit version ≤ 2 (which is 2) nor
`ErrInitialVersion` — refuting the claim's "including the case where the
store's current version already exceeds every unit version ≤ T". -/
theorem C3_counterexample :
    (mkFake [1,2,3] false).Up 2 (fakeInit [1,2,3]) =
      (none, fakeInit [1,2,3]) ∧
    (fakeStore.version (fakeInit [1,2,3])).1 = (3, none) ∧
    (fakeStore.version (fakeInit [1,2,3])).1 ≠ (2, none) ∧
    (fakeStore.version (fakeInit [1,2,3])).1.2 ≠ some .initialVersion := by
  decide

lemma checkAux_none_chain {ω : Type} :
    ∀ (ms : List (Migration ω)) (prev : Int) (seen : List Int),
      checkAux ms prev seen = none → (prev ∈ seen ∨ prev = -1) →
      List.Chain (· < ·) prev (ms.map (fun mg => mg.version)) := by
  intro ms
  induction ms with
  | nil => intro prev seen _ _; exact List.Chain.nil
  | cons mg rest ih =>
    intro prev seen h hmem
    by_cases h0 : mg.version < 0
    · simp [checkAux, h0] at h
    by_cases h1 : mg.version < prev
    · simp [checkAux, h0, h1] at h
    by_cases h2 : mg.version ∈ seen
    · simp [checkAux, h0, h1, h2] at h
    · simp only [checkAux, if_neg h0, if_neg h1] at h
      rw [if_neg (by simpa using h2)] at h
      have hlt : prev < mg.version := by
        rcases hmem with hm | hm
        · rcases lt_or_eq_of_le (not_lt.mp h1) with h' | h'
          · exact h'
          · exact absurd (h' ▸ hm) h2
        · omega
      exact List.Chain.cons hlt
        (ih mg.version (mg.version :: seen) h (Or.inl (List.mem_cons_self _ _)))

/-- A passed `check` yields a strictly increasing version list dominated by
`-1` (hence nonnegative, sorted and duplicate-free). -/
lemma check_none_pairwise {ω : Type} (m : Migrator ω) (h : m.check = none) :
    List.Pairwise (· < ·) ((-1) :: m.sources.map (fun mg => mg.version)) := by
  have hc := checkAux_none_chain m.sources (-1) [] h (Or.inr rfl)
  exact List.chain_iff_pairwise.mp hc

lemma check_none_sorted {ω : Type} (m : Migrator ω) (h : m.check = none) :
    List.Pairwise (· < ·) (m.sources.map (fun mg => mg.version)) :=
  (List.pairwise_cons.mp (check_none_pairwise m h)).2

lemma check_none_nonneg {ω : Type} (m : Migrator ω) (h : m.check = none) :
    ∀ mg ∈ m.sources, 0 ≤ mg.version := by
  intro mg hmg
  have := (List.pairwise_cons.mp (check_none_pairwise m h)).1 mg.version
    (List.mem_map_of_mem _ hmg)
  omega

/-- C8: for every migration list failing validation (a negative version, a
version below its predecessor, or a duplicate), both `Up` and `Down` return
the validation error with the store state untouched — for every store over
every state type, so no store operation can have been invoked. -/
theorem C8_invalid_list_no_store_calls :
    ∀ (ω : Type) (S : Store ω) (srcs : List (Migration ω)) (hold : Bool)
      (tg : Int) (fuel : Nat) (w : ω),
    ((∃ mg ∈ srcs, mg.version < 0) ∨
      ¬ List.Chain' (· ≤ ·) (srcs.map (fun mg => mg.version)) ∨
      ¬ (srcs.map (fun mg => mg.version)).Nodup) →
    ∃ e, (⟨S, srcs, hold⟩ : Migrator ω).Up tg w = (some (.invalidSources e), w) ∧
      (⟨S, srcs, hold⟩ : Migrator ω).Down tg fuel w =
        some (some (.invalidSources e), w) := by
  intro ω S srcs hold tg fuel w hbad
  rcases hc : (⟨S, srcs, hold⟩ : Migrator ω).check with _ | e
  · exfalso
    have hsorted := check_none_sorted _ hc
    have hnn := check_none_nonneg _ hc
    rcases hbad with ⟨mg, hmg, hneg⟩ | hchain | hnd
    · have := hnn mg hmg; omega
    · exact hchain ((hsorted.chain').imp (fun {a b} h => le_of_lt h))
    · exact hnd (hsorted.imp (fun h => ne_of_lt h))
  · exact ⟨e, by simp [Migrator.Up, hc], by simp [Migrator.Down, hc]⟩

/-- Witness for C8 at the misordered list `[3,1]`. -/
theorem C8_witness :
    ∃ e, (⟨fakeStore, [noopMigration 3, noopMigration 1], false⟩ :
        Migrator FakeState).Up 3 (fakeInit []) =
        (some (.invalidSources e), fakeInit []) ∧
      (⟨fakeStore, [noopMigration 3, noopMigration 1], false⟩ :
        Migrator FakeState).Down 3 9 (fakeInit []) =
        some (some (.invalidSources e), fakeInit []) :=
  C8_invalid_list_no_store_calls FakeState fakeStore
    [noopMigration 3, noopMigration 1] false 3 9 (fakeInit [])
    (Or.inr (Or.inl (by norm_num [noopMigration, List.chain'_cons])))

/-- A search for an absent element reports not-found. -/
lemma binarySearchFunc_not_found {vs : List Int} {t : Int} (h : t ∉ vs) :
    (binarySearchFunc vs t).2 = false := by
  unfold binarySearchFunc
  simp only [decide_eq_false_iff_not]
  intro hc
  exact h (List.get?_mem hc)

/-- The revert loop fails only with a missing-remote, revert, remove or
version error — never with a missing-target error. -/
lemma downLoop_failed_shape {ω : Type} (S : Store ω) (srcs : List (Migration ω))
    (tg : Int) :
    ∀ (fuel : Nat) (rv : Int) (w : ω) (e : DriverErr) (w' : ω),
      downLoop S srcs tg fuel rv w = (.failed e, w') →
      (∃ v, e = .missingRemote v) ∨ (∃ v g, e = .revertFailed v g) ∨
        (∃ v g, e = .removeFailed v g) ∨ (∃ g, e = .versionFailed g) := by
  intro fuel
  induction fuel with
  | zero =>
    intro rv w e w' h
    unfold downLoop at h
    split at h <;> simp at h
  | succ n ih =>
    intro rv w e w' h
    unfold downLoop at h
    split at h
    · simp at h
    · simp only [] at h
      split at h
      · simp at h
        exact Or.inl ⟨rv, h.1.symm⟩
      · split at h
        · simp at h
          exact Or.inl ⟨rv, h.1.symm⟩
        · split at h
          · simp at h
            rcases h with ⟨h1, -⟩
            exact Or.inr (Or.inl ⟨_, _, h1.symm⟩)
          · split at h
            · simp at h
              rcases h with ⟨h1, -⟩
              exact Or.inr (Or.inr (Or.inl ⟨_, _, h1.symm⟩))
            · split at h
              · exact ih _ _ _ _ h
              · split at h <;> simp at h
                rcases h with ⟨h1, -⟩
                exact Or.inr (Or.inr (Or.inr ⟨_, h1.symm⟩))

/-- Shape of the deferred-release epilogue's error: the primary error, a
bare release failure (primary nil), or a join of the two. -/
lemma finishRelease_fst {ω : Type} (S : Store ω) (b : Bool)
    (pr : Option DriverErr) (w : ω) :
    (finishRelease S b pr w).1 = pr ∨
      (pr = none ∧ ∃ e, (finishRelease S b pr w).1 = some (.releaseFailed e)) ∨
      (∃ p e, pr = some p ∧ (finishRelease S b pr w).1 = some (.joined p e)) := by
  unfold finishRelease
  split
  · split
    · exact Or.inl rfl
    · rcases pr with _ | p
      · exact Or.inr (Or.inl ⟨rfl, _, rfl⟩)
      · exact Or.inr (Or.inr ⟨p, _, rfl, rfl⟩)
  · exact Or.inl rfl

/-- C7: with a validated list, `Down(ctx, T)` with `T ≠ -1` and no unit of
version `T` fails with the missing-target error before any store
interaction (the state comes back exactly as passed, for every store), and
`T = -1` bypasses the existence check: no result of `Down(ctx, -1)` is a
missing-target error. -/
theorem C7_down_missing_target :
    ∀ (ω : Type) (S : Store ω) (srcs : List (Migration ω)) (hold : Bool)
      (tg : Int) (fuel : Nat) (w : ω),
    (⟨S, srcs, hold⟩ : Migrator ω).check = none →
    ((tg ≠ -1 → (∀ mg ∈ srcs, mg.version ≠ tg) →
        (⟨S, srcs, hold⟩ : Migrator ω).Down tg fuel w =
          some (some (.missingTarget tg), w)) ∧
      (tg = -1 → ∀ r, (⟨S, srcs, hold⟩ : Migrator ω).Down tg fuel w = some r →
        ∀ x, r.1 ≠ some (.missingTarget x))) := by
  intro ω S srcs hold tg fuel w hc
  constructor
  · intro hne habs
    have hf : (binarySearchFunc (srcs.map (fun mg => mg.version)) tg).2 = false := by
      apply binarySearchFunc_not_found
      intro hm
      rcases List.mem_map.mp hm with ⟨mg, hmg, hv⟩
      exact habs mg hmg hv
    simp only [Migrator.Down, hc]
    rw [hf]
    simp [hne]
  · intro htg r hr x hbad
    subst htg
    simp only [Migrator.Down, hc] at hr
    rw [if_neg (by simp)] at hr
    split at hr
    · injection hr with hr
      subst hr
      simp at hbad
    · split at hr
      · injection hr with hr
        subst hr
        simp at hbad
      · split at hr
        · split at hr
          · injection hr with hr
            subst hr
            rcases finishRelease_fst S true none _ with hsh | ⟨-, e', hsh⟩ |
                ⟨p, e', hp, hsh⟩
            · rw [hsh] at hbad
              simp at hbad
            · rw [hsh] at hbad
              simp at hbad
            · simp at hp
          · injection hr with hr
            subst hr
            rcases finishRelease_fst S true (some (.versionFailed _)) _ with
                hsh | ⟨hp, e', hsh⟩ | ⟨p, e', hp, hsh⟩
            · rw [hsh] at hbad
              simp at hbad
            · simp at hp
            · rw [hsh] at hbad
              simp at hbad
        · split at hr
          · injection hr with hr
            subst hr
            rcases finishRelease_fst S true none _ with hsh | ⟨-, e', hsh⟩ |
                ⟨p, e', hp, hsh⟩
            · rw [hsh] at hbad
              simp at hbad
            · rw [hsh] at hbad
              simp at hbad
            · simp at hp
          · injection hr with hr
            subst hr
            rcases finishRelease_fst S (!hold) none _ with hsh | ⟨-, e', hsh⟩ |
                ⟨p, e', hp, hsh⟩
            · rw [hsh] at hbad
              simp at hbad
            · rw [hsh] at hbad
              simp at hbad
            · simp at hp
          · rename_i e' w₄ heq
            injection hr with hr
            subst hr
            rcases downLoop_failed_shape S srcs (-1) fuel _ _ e' w₄ heq with
                ⟨v', hsh'⟩ | ⟨v', g', hsh'⟩ | ⟨v', g', hsh'⟩ | ⟨g', hsh'⟩ <;>
              · subst hsh'
                rcases finishRelease_fst S (!hold) _ _ with hsh | ⟨hp, e'', hsh⟩ |
                    ⟨p, e'', hp, hsh⟩
                · rw [hsh] at hbad
                  simp at hbad
                · simp at hp
                · rw [hsh] at hbad
                  injection hp with hp
                  subst hp
                  simp at hbad
          · exact Option.noConfusion hr

/-- Witness for C7: target 5 is absent from units `[1,2,3]`. -/
theorem C7_witness :
    (mkFake [1,2,3] false).Down 5 9 (fakeInit [1,2,3]) =
      some (some (.missingTarget 5), fakeInit [1,2,3]) :=
  (C7_down_missing_target FakeState fakeStore
      (([1,2,3] : List Int).map noopMigration) false 5 9 (fakeInit [1,2,3])
      (by decide)).1 (by decide) (by decide)

lemma filter_map_noop (vs : List Int) (p : Int → Bool) :
    (vs.map noopMigration).filter (fun mg => p mg.version) =
      (vs.filter p).map noopMigration := by
  induction vs with
  | nil => rfl
  | cons v rest ih =>
    by_cases hp : p v <;> simp [noopMigration, hp, ih]

lemma noop_version (v : Int) : (noopMigration v).version = v := rfl

lemma noop_up (v : Int) (s : FakeState) : (noopMigration v).Up s = (none, s) := rfl

lemma noop_down (v : Int) (s : FakeState) :
    (noopMigration v).Down s = (none, s) := rfl

lemma fakeStore_init (s : FakeState) : fakeStore.init s = (none, s) := rfl

lemma fakeStore_insert (v : Int) (s : FakeState) :
    fakeStore.insert v s =
      (none, { s with versions := s.versions ++ [v],
                      applied := s.applied ++ [v] }) := rfl

lemma fakeStore_release (s : FakeState) :
    fakeStore.release s = (none, { s with locked := false }) := rfl

lemma fakeStore_lock_unlocked (s : FakeState) (h : s.locked = false) :
    fakeStore.lock s = (none, { s with locked := true }) := by
  simp [fakeStore, h]

lemma upApply_fake (tg : Int) :
    ∀ (vs : List Int) (rv : Int) (s : FakeState),
      upApply fakeStore rv tg (vs.map noopMigration) s =
        (none, { s with
          versions := s.versions ++ vs.filter (planPred rv tg),
          applied := s.applied ++ vs.filter (planPred rv tg) }) := by
  intro vs
  induction vs with
  | nil => intro rv s; simp [upApply]
  | cons v rest ih =>
    intro rv s
    simp only [List.map_cons, upApply, noop_version, noop_up]
    by_cases hp : v > rv ∧ v ≤ tg
    · have hpb : planPred rv tg v = true := by
        simp only [planPred, Bool.and_eq_true, decide_eq_true_eq]
        omega
      rw [if_pos hp]
      simp only [fakeStore_insert, ih]
      simp [List.filter_cons, hpb, List.append_assoc]
    · have hpb : planPred rv tg v = false := by
        simp only [planPred, Bool.and_eq_false_iff, decide_eq_false_iff_not]
        omega
      rw [if_neg hp]
      rw [ih]
      simp [List.filter_cons, hpb]

lemma mkFake_store (vs : List Int) (hold : Bool) :
    (mkFake vs hold).store = fakeStore := rfl

lemma mkFake_sources (vs : List Int) (hold : Bool) :
    (mkFake vs hold).sources = vs.map noopMigration := rfl

lemma finishRelease_fake (b : Bool) (pr : Option DriverErr) (s : FakeState) :
    finishRelease fakeStore b pr s =
      (pr, if b then { s with locked := false } else s) := by
  unfold finishRelease
  cases b <;> simp [fakeStore_release]

lemma filter_map_noop' (vs : List Int) (rv tg : Int) :
    (vs.map noopMigration).filter
      (fun mg => decide (mg.version > rv) && decide (mg.version ≤ tg)) =
      (vs.filter (planPred rv tg)).map noopMigration := by
  induction vs with
  | nil => rfl
  | cons v rest ih =>
    rcases hpb : planPred rv tg v with _ | _ <;>
      · have := hpb
        simp only [planPred] at this
        simp [List.filter_cons, noop_version, this, hpb, ih]

lemma upMain_fake (vs : List Int) (hold : Bool) (rv tg : Int) (s : FakeState) :
    upMain (mkFake vs hold) rv tg s =
      (none, { s with
        versions := s.versions ++ vs.filter (planPred rv tg),
        applied := s.applied ++ vs.filter (planPred rv tg),
        locked := false }) := by
  unfold upMain
  rw [mkFake_sources, mkFake_store, filter_map_noop']
  by_cases he : vs.filter (planPred rv tg) = []
  · simp [he, finishRelease_fake]
  · have hne : ((vs.filter (planPred rv tg)).map noopMigration).isEmpty = false := by
      simp [List.isEmpty_iff, he]
    simp only [hne, Bool.false_eq_true, if_false, upApply_fake, finishRelease_fake]
    simp

/-- Running `Up` on the canonical store with no-op units: it always
succeeds, pushing exactly the planned versions (the filter of the unit
versions by `current < v ≤ target`, with `current` the stack top or the
0 returned alongside `ErrInitialVersion`), and leaves the lock released. -/
lemma up_fake (vs : List Int) (hold : Bool) (tg : Int) (s : FakeState)
    (hc : (mkFake vs hold).check = none) (hl : s.locked = false) :
    (mkFake vs hold).Up tg s =
      (none, { s with
        versions := s.versions ++ vs.filter (planPred (fakeRemote s) tg),
        applied := s.applied ++ vs.filter (planPred (fakeRemote s) tg),
        locked := false }) := by
  unfold Migrator.Up
  rw [hc, mkFake_store, fakeStore_init]
  simp only []
  rw [fakeStore_lock_unlocked s hl]
  simp only []
  rcases hlast : s.versions.getLast? with _ | v
  · have hv : fakeStore.version { s with locked := true } =
        ((0, some .initialVersion), { s with locked := true }) := by
      simp [fakeStore, hlast]
    rw [hv]
    simp only []
    simp only [if_true]
    rw [upMain_fake]
    simp [fakeRemote, hlast]
  · have hv : fakeStore.version { s with locked := true } =
        ((v, none), { s with locked := true }) := by
      simp [fakeStore, hlast]
    rw [hv]
    simp only []
    rw [upMain_fake]
    simp [fakeRemote, hlast]

lemma getLast?_mem_list : ∀ {l : List Int} {b : Int}, l.getLast? = some b → b ∈ l := by
  intro l
  induction l with
  | nil => intro b h; simp at h
  | cons a rest ih =>
    intro b h
    rcases rest with _ | ⟨c, rest'⟩
    · simp at h
      simp [h]
    · have h' : (c :: rest').getLast? = some b := by simpa using h
      exact List.mem_cons_of_mem _ (ih h')

lemma mem_le_getLast : ∀ {l : List Int} {x b : Int}, List.Pairwise (· < ·) l →
    x ∈ l → l.getLast? = some b → x ≤ b := by
  intro l
  induction l with
  | nil => intro x b _ hx _; simp at hx
  | cons a rest ih =>
    intro x b hp hx hb
    rcases rest with _ | ⟨c, rest'⟩
    · simp at hx hb
      omega
    · have hb' : (c :: rest').getLast? = some b := by simpa using hb
      rcases List.mem_cons.mp hx with rfl | hx'
      · have hbm : b ∈ c :: rest' := getLast?_mem_list hb'
        have := (List.pairwise_cons.mp hp).1 b hbm
        omega
      · exact ih (List.pairwise_cons.mp hp).2 hx' hb'

/-- C3, amended: after a successful `Up(ctx, T)` on the canonical store, a
subsequent `Version` reports the largest unit version ≤ T *when some unit
qualified* (current < V ≤ T); when no unit qualified the report is simply
unchanged — in particular, when the current version already exceeds every
unit version ≤ T, `Version` keeps returning that current version, not the
largest unit version and not `ErrInitialVersion`. -/
theorem C3_amended_up_version_report (vs : List Int) (hold : Bool) (tg : Int)
    (s : FakeState) (hc : (mkFake vs hold).check = none)
    (hl : s.locked = false) :
    ∃ s', (mkFake vs hold).Up tg s = (none, s') ∧
      ((∀ b, (vs.filter (planPred (fakeRemote s) tg)).getLast? = some b →
          (fakeStore.version s').1 = (b, none) ∧ b ≤ tg ∧
          ∀ u ∈ vs, u ≤ tg → u ≤ b) ∧
        (vs.filter (planPred (fakeRemote s) tg) = [] →
          (fakeStore.version s').1 = (fakeStore.version s).1)) := by
  refine ⟨_, up_fake vs hold tg s hc hl, ?_, ?_⟩
  · intro b hb
    have hsorted : List.Pairwise (· < ·) vs := by
      have := check_none_sorted _ hc
      rw [mkFake_sources] at this
      have hmap : (vs.map noopMigration).map (fun mg => mg.version) = vs := by
        simp [Function.comp_def, noopMigration]
      rwa [hmap] at this
    have hfilsort : List.Pairwise (· < ·) (vs.filter (planPred (fakeRemote s) tg)) :=
      hsorted.sublist (List.filter_sublist vs)
    have hbmem : b ∈ vs.filter (planPred (fakeRemote s) tg) := getLast?_mem_list hb
    have hbpred := List.of_mem_filter hbmem
    simp only [planPred, Bool.and_eq_true, decide_eq_true_eq] at hbpred
    have hvtop : ({ s with
        versions := s.versions ++ vs.filter (planPred (fakeRemote s) tg),
        applied := s.applied ++ vs.filter (planPred (fakeRemote s) tg),
        locked := false } : FakeState).versions.getLast? = some b := by
      simp only []
      rw [List.getLast?_append_of_ne_nil]
      · exact hb
      · intro hnil
        rw [hnil] at hb
        simp at hb
    refine ⟨?_, hbpred.2, ?_⟩
    · simp [fakeStore, hvtop]
    · intro u hu hule
      by_cases hcur : fakeRemote s < u
      · have humem : u ∈ vs.filter (planPred (fakeRemote s) tg) :=
          List.mem_filter_of_mem hu (by
            simp only [planPred, Bool.and_eq_true, decide_eq_true_eq]
            exact ⟨hcur, hule⟩)
        exact mem_le_getLast hfilsort humem hb
      · have := hbpred.1
        omega
  · intro hnil
    simp only [hnil, List.append_nil, fakeStore]
    rcases h : s.versions.getLast? with _ | v <;> simp [h]

/-- Witness for the amended C3 at units `[1,2,3]`, store at version 1,
target 3. -/
theorem C3_amended_witness :
    ∃ s', (mkFake [1,2,3] false).Up 3 (fakeInit [1]) = (none, s') ∧
      ((∀ b, (([1,2,3] : List Int).filter
            (planPred (fakeRemote (fakeInit [1])) 3)).getLast? = some b →
          (fakeStore.version s').1 = (b, none) ∧ b ≤ 3 ∧
          ∀ u ∈ ([1,2,3] : List Int), u ≤ 3 → u ≤ b) ∧
        (([1,2,3] : List Int).filter (planPred (fakeRemote (fakeInit [1])) 3) = [] →
          (fakeStore.version s').1 = (fakeStore.version (fakeInit [1])).1)) :=
  C3_amended_up_version_report [1,2,3] false 3 (fakeInit [1]) (by decide) (by decide)

/-- C9: idempotence of `Up` on the canonical store.  A successful
`Up(ctx, T)` immediately followed by `Up(ctx, T)` makes the second call a
complete no-op: it returns success with the state exactly as it received
it (in particular the stack and the applied log are unchanged, so no
migration action ran and no version was inserted). -/
theorem C9_up_idempotent (vs : List Int) (hold : Bool) (tg : Int)
    (s : FakeState) (hc : (mkFake vs hold).check = none)
    (hl : s.locked = false) :
    ∀ s₁, (mkFake vs hold).Up tg s = (none, s₁) →
      (mkFake vs hold).Up tg s₁ = (none, s₁) := by
  intro s₁ h1
  have hrun := up_fake vs hold tg s hc hl
  rw [h1] at hrun
  injection hrun with h0 h
  subst h
  have hsorted : List.Pairwise (· < ·) vs := by
    have := check_none_sorted _ hc
    rw [mkFake_sources] at this
    have hmap : (vs.map noopMigration).map (fun mg => mg.version) = vs := by
      simp [Function.comp_def, noopMigration]
    rwa [hmap] at this
  have hfilsort : List.Pairwise (· < ·) (vs.filter (planPred (fakeRemote s) tg)) :=
    hsorted.sublist (List.filter_sublist vs)
  have hrem2 : vs.filter (planPred (fakeRemote { s with
      versions := s.versions ++ vs.filter (planPred (fakeRemote s) tg),
      applied := s.applied ++ vs.filter (planPred (fakeRemote s) tg),
      locked := false }) tg) = [] := by
    by_cases hnil : vs.filter (planPred (fakeRemote s) tg) = []
    · have heq : fakeRemote { s with
          versions := s.versions ++ vs.filter (planPred (fakeRemote s) tg),
          applied := s.applied ++ vs.filter (planPred (fakeRemote s) tg),
          locked := false } = fakeRemote s := by
        show (s.versions ++ vs.filter (planPred (fakeRemote s) tg)).getLast?.getD 0 =
          fakeRemote s
        rw [hnil, List.append_nil]
        rfl
      rw [heq]
      exact hnil
    · rcases hbs : (vs.filter (planPred (fakeRemote s) tg)).getLast? with _ | b
      · exact absurd (List.getLast?_eq_none_iff.mp hbs) hnil
      · have hrem : fakeRemote { s with
            versions := s.versions ++ vs.filter (planPred (fakeRemote s) tg),
            applied := s.applied ++ vs.filter (planPred (fakeRemote s) tg),
            locked := false } = b := by
          show (s.versions ++ vs.filter (planPred (fakeRemote s) tg)).getLast?.getD 0 = b
          rw [List.getLast?_append_of_ne_nil _ hnil, hbs]
          rfl
        rw [hrem, List.filter_eq_nil_iff]
        intro u hu
        simp only [planPred, Bool.and_eq_true, decide_eq_true_eq, not_and]
        intro hgt hle
        have hbpred := List.of_mem_filter (getLast?_mem_list hbs)
        simp only [planPred, Bool.and_eq_true, decide_eq_true_eq] at hbpred
        have hble : u ≤ b := by
          by_cases hcur : fakeRemote s < u
          · exact mem_le_getLast hfilsort
              (List.mem_filter_of_mem hu (by
                simp only [planPred, Bool.and_eq_true, decide_eq_true_eq]
                exact ⟨hcur, hle⟩)) hbs
          · omega
        omega
  have hrun2 := up_fake vs hold tg { s with
      versions := s.versions ++ vs.filter (planPred (fakeRemote s) tg),
      applied := s.applied ++ vs.filter (planPred (fakeRemote s) tg),
      locked := false } hc rfl
  rw [hrem2] at hrun2
  simpa using hrun2

/-- Witness for C9 at units `[1,2,3]`, empty store, target 2. -/
theorem C9_witness :
    (mkFake [1,2,3] false).Up 2 ⟨[1, 2], [1, 2], [], false⟩ =
      (none, ⟨[1, 2], [1, 2], [], false⟩) :=
  C9_up_idempotent [1,2,3] false 2 (fakeInit []) (by decide) (by decide)
    ⟨[1, 2], [1, 2], [], false⟩ (by decide)

lemma failUp_version (v : Int) : (failUpMigration v).version = v := rfl

lemma failUp_up (v : Int) (s : FakeState) :
    (failUpMigration v).Up s = (some (.other "test up migration error"), s) := rfl

lemma upApply_badUp (tg bad : Int) :
    ∀ (vs : List Int) (rv : Int) (s : FakeState),
      bad ∈ vs.filter (planPred rv tg) →
      upApply fakeStore rv tg (migsBadUp bad vs) s =
        (some (.applyFailed bad (.other "test up migration error")),
         { s with
           versions := s.versions ++
             (vs.filter (planPred rv tg)).takeWhile (fun u => decide (u ≠ bad)),
           applied := s.applied ++
             (vs.filter (planPred rv tg)).takeWhile (fun u => decide (u ≠ bad)) }) := by
  intro vs
  induction vs with
  | nil => intro rv s h; simp at h
  | cons v rest ih =>
    intro rv s hmem
    by_cases hp : v > rv ∧ v ≤ tg
    · have hpb : planPred rv tg v = true := by
        simp only [planPred, Bool.and_eq_true, decide_eq_true_eq]
        omega
      by_cases hvb : v = bad
      · subst hvb
        simp only [migsBadUp, List.map_cons, if_pos rfl, if_true, upApply, failUp_version]
        rw [if_pos hp]
        simp only [failUp_up]
        simp [List.filter_cons, hpb, List.takeWhile_cons]
      · simp only [migsBadUp, List.map_cons, if_neg hvb, upApply, noop_version,
          noop_up, if_pos hp, fakeStore_insert]
        have hmem' : bad ∈ rest.filter (planPred rv tg) := by
          rw [List.filter_cons, if_pos hpb] at hmem
          rcases List.mem_cons.mp hmem with rfl | h
          · exact absurd rfl hvb
          · exact h
        rw [show migsBadUp bad rest =
            rest.map (fun v => if v = bad then failUpMigration v else noopMigration v)
          from rfl] at ih
        rw [ih rv _ hmem']
        have hvb' : (fun u => decide (u ≠ bad)) v = true := by
          simp [hvb]
        simp [List.filter_cons, hpb, List.takeWhile_cons, hvb, hvb',
          List.append_assoc]
    · have hpb : planPred rv tg v = false := by
        simp only [planPred, Bool.and_eq_false_iff, decide_eq_false_iff_not]
        omega
      have hver : (if v = bad then failUpMigration v else noopMigration v).version = v := by
        by_cases hvb : v = bad <;> simp [hvb, failUp_version, noop_version]
      simp only [migsBadUp, List.map_cons, upApply, hver, if_neg hp]
      have hmem' : bad ∈ rest.filter (planPred rv tg) := by
        rw [List.filter_cons, if_neg (by simp [hpb])] at hmem
        exact hmem
      rw [show migsBadUp bad rest =
          rest.map (fun v => if v = bad then failUpMigration v else noopMigration v)
        from rfl] at ih
      rw [ih rv s hmem']
      simp [List.filter_cons, hpb]

lemma badInsert_insert_hit (bad : Int) (s : FakeState) :
    (fakeStoreBadInsert bad).insert bad s =
      (some (.other "test insert error"), s) := by
  simp [fakeStoreBadInsert]

lemma badInsert_insert_miss (bad v : Int) (s : FakeState) (h : v ≠ bad) :
    (fakeStoreBadInsert bad).insert v s =
      (none, { s with versions := s.versions ++ [v],
                      applied := s.applied ++ [v] }) := by
  simp [fakeStoreBadInsert, h, fakeStore_insert]

lemma upApply_badInsert (tg bad : Int) :
    ∀ (vs : List Int) (rv : Int) (s : FakeState),
      bad ∈ vs.filter (planPred rv tg) →
      upApply (fakeStoreBadInsert bad) rv tg (vs.map noopMigration) s =
        (some (.insertFailed bad (.other "test insert error")),
         { s with
           versions := s.versions ++
             (vs.filter (planPred rv tg)).takeWhile (fun u => decide (u ≠ bad)),
           applied := s.applied ++
             (vs.filter (planPred rv tg)).takeWhile (fun u => decide (u ≠ bad)) }) := by
  intro vs
  induction vs with
  | nil => intro rv s h; simp at h
  | cons v rest ih =>
    intro rv s hmem
    by_cases hp : v > rv ∧ v ≤ tg
    · have hpb : planPred rv tg v = true := by
        simp only [planPred, Bool.and_eq_true, decide_eq_true_eq]
        omega
      by_cases hvb : v = bad
      · subst hvb
        simp only [List.map_cons, upApply, noop_version, noop_up]
        rw [if_pos hp, badInsert_insert_hit]
        simp [List.filter_cons, hpb, List.takeWhile_cons]
      · simp only [List.map_cons, upApply, noop_version, noop_up]
        rw [if_pos hp, badInsert_insert_miss bad v _ hvb]
        have hmem' : bad ∈ rest.filter (planPred rv tg) := by
          rw [List.filter_cons, if_pos hpb] at hmem
          rcases List.mem_cons.mp hmem with rfl | h
          · exact absurd rfl hvb
          · exact h
        dsimp only
        rw [ih rv _ hmem']
        simp [List.filter_cons, hpb, List.takeWhile_cons, hvb, List.append_assoc]
    · have hpb : planPred rv tg v = false := by
        simp only [planPred, Bool.and_eq_false_iff, decide_eq_false_iff_not]
        omega
      simp only [List.map_cons, upApply, noop_version]
      rw [if_neg hp]
      have hmem' : bad ∈ rest.filter (planPred rv tg) := by
        rw [List.filter_cons, if_neg (by simp [hpb])] at hmem
        exact hmem
      rw [ih rv s hmem']
      simp [List.filter_cons, hpb]

/-- Common plumbing of `Up` down to the plan phase, for any migrator whose
store shares the canonical `Init`/`Lock`/`Version` behaviours. -/
lemma up_to_upMain (m : Migrator FakeState) (tg : Int) (s : FakeState)
    (hc : m.check = none) (hl : s.locked = false)
    (hi : m.store.init = fakeStore.init) (hk : m.store.lock = fakeStore.lock)
    (hv : m.store.version = fakeStore.version) :
    m.Up tg s = upMain m (fakeRemote s) tg { s with locked := true } := by
  unfold Migrator.Up
  rw [hc, hi, fakeStore_init]
  simp only []
  rw [hk, fakeStore_lock_unlocked s hl]
  simp only []
  rw [hv]
  rcases hlast : s.versions.getLast? with _ | v
  · have hvv : fakeStore.version { s with locked := true } =
        ((0, some .initialVersion), { s with locked := true }) := by
      simp [fakeStore, hlast]
    rw [hvv]
    simp only [if_true]
    simp [fakeRemote, hlast]
  · have hvv : fakeStore.version { s with locked := true } =
        ((v, none), { s with locked := true }) := by
      simp [fakeStore, hlast]
    rw [hvv]
    simp only []
    simp [fakeRemote, hlast]

lemma filter_migsBadUp (vs : List Int) (bad rv tg : Int) :
    (migsBadUp bad vs).filter
      (fun mg => decide (mg.version > rv) && decide (mg.version ≤ tg)) =
      migsBadUp bad (vs.filter (planPred rv tg)) := by
  induction vs with
  | nil => rfl
  | cons v rest ih =>
    have hver : (if v = bad then failUpMigration v else noopMigration v).version = v := by
      by_cases hvb : v = bad <;> simp [hvb, failUp_version, noop_version]
    rcases hpb : planPred rv tg v with _ | _ <;>
      · have := hpb
        simp only [planPred] at this
        simp [migsBadUp, List.filter_cons, hver, this, hpb] at ih ⊢
        exact ih

lemma finishRelease_badInsert (bad : Int) (b : Bool) (pr : Option DriverErr)
    (s : FakeState) :
    finishRelease (fakeStoreBadInsert bad) b pr s = finishRelease fakeStore b pr s := rfl

/-- C5: when a planned step fails — its up action fails, or its `Insert`
fails — `Up` returns that step's error and the store has recorded exactly
the planned versions strictly preceding the failing step; the failing
step's version is not recorded. -/
theorem C5_failed_step_records_prefix (vs : List Int) (bad : Int) (hold : Bool)
    (tg : Int) (s : FakeState) (hl : s.locked = false) :
    ((⟨fakeStore, migsBadUp bad vs, hold⟩ : Migrator FakeState).check = none →
      bad ∈ vs.filter (planPred (fakeRemote s) tg) →
      (⟨fakeStore, migsBadUp bad vs, hold⟩ : Migrator FakeState).Up tg s =
        (some (.applyFailed bad (.other "test up migration error")),
         ⟨s.versions ++ (vs.filter (planPred (fakeRemote s) tg)).takeWhile
             (fun u => decide (u ≠ bad)),
          s.applied ++ (vs.filter (planPred (fakeRemote s) tg)).takeWhile
             (fun u => decide (u ≠ bad)),
          s.reverted, hold⟩)) ∧
    ((⟨fakeStoreBadInsert bad, vs.map noopMigration, hold⟩ :
        Migrator FakeState).check = none →
      bad ∈ vs.filter (planPred (fakeRemote s) tg) →
      (⟨fakeStoreBadInsert bad, vs.map noopMigration, hold⟩ :
        Migrator FakeState).Up tg s =
        (some (.insertFailed bad (.other "test insert error")),
         ⟨s.versions ++ (vs.filter (planPred (fakeRemote s) tg)).takeWhile
             (fun u => decide (u ≠ bad)),
          s.applied ++ (vs.filter (planPred (fakeRemote s) tg)).takeWhile
             (fun u => decide (u ≠ bad)),
          s.reverted, hold⟩)) ∧
    bad ∉ (vs.filter (planPred (fakeRemote s) tg)).takeWhile
      (fun u => decide (u ≠ bad)) := by
  refine ⟨?_, ?_, ?_⟩
  · intro hc hmem
    rw [up_to_upMain _ tg s hc hl rfl rfl rfl]
    unfold upMain
    simp only [filter_migsBadUp]
    have hne : migsBadUp bad (vs.filter (planPred (fakeRemote s) tg)) ≠ [] := by
      simp only [migsBadUp]
      simp [List.ne_nil_of_mem hmem]
    have hie : (migsBadUp bad (vs.filter (planPred (fakeRemote s) tg))).isEmpty = false := by
      simp [List.isEmpty_iff, hne]
    simp only [hie, Bool.false_eq_true, if_false]
    rw [upApply_badUp tg bad vs (fakeRemote s) _ hmem]
    simp only [finishRelease_fake]
    cases hold <;> simp
  · intro hc hmem
    rw [up_to_upMain _ tg s hc hl rfl rfl rfl]
    unfold upMain
    simp only [filter_map_noop']
    have hne : (vs.filter (planPred (fakeRemote s) tg)).map noopMigration ≠ [] := by
      simp [List.ne_nil_of_mem hmem]
    have hie : ((vs.filter (planPred (fakeRemote s) tg)).map noopMigration).isEmpty = false := by
      simp [List.isEmpty_iff, hne]
    simp only [hie, Bool.false_eq_true, if_false]
    rw [upApply_badInsert tg bad vs (fakeRemote s) _ hmem]
    simp only [finishRelease_badInsert, finishRelease_fake]
    cases hold <;> simp
  · intro hmem
    have := List.mem_takeWhile_imp hmem
    simp at this

/-- Witness for C5: units `[1,2,3]`, step 2 failing, target 3, empty
store — exactly the versions before the failure (just 1) are recorded. -/
theorem C5_witness :
    (⟨fakeStore, migsBadUp 2 [1,2,3], false⟩ : Migrator FakeState).Up 3
        (fakeInit []) =
      (some (.applyFailed 2 (.other "test up migration error")),
       ⟨[1], [1], [], false⟩) ∧
    (⟨fakeStoreBadInsert 2, ([1,2,3] : List Int).map noopMigration, false⟩ :
        Migrator FakeState).Up 3 (fakeInit []) =
      (some (.insertFailed 2 (.other "test insert error")),
       ⟨[1], [1], [], false⟩) := by
  have h := C5_failed_step_records_prefix [1,2,3] 2 false 3 (fakeInit []) rfl
  exact ⟨(h.1 (by decide) (by decide)).trans (by decide),
         (h.2.1 (by decide) (by decide)).trans (by decide)⟩

lemma getLast_dropLast_lt {l : List Int} {b c : Int}
    (hp : List.Pairwise (· < ·) l) (hb : l.getLast? = some b)
    (hc : l.dropLast.getLast? = some c) : c < b := by
  have hne : l ≠ [] := by
    intro h
    rw [h] at hb
    simp at hb
  have hsplit : l.dropLast ++ [l.getLast hne] = l := List.dropLast_append_getLast hne
  have hbl : b = l.getLast hne := by
    rw [List.getLast?_eq_getLast_of_ne_nil hne] at hb
    injection hb with hb
    exact hb.symm
  have hcm : c ∈ l.dropLast := getLast?_mem_list hc
  have hpar : List.Pairwise (· < ·) (l.dropLast ++ [l.getLast hne]) := by
    rw [hsplit]
    exact hp
  have := (List.pairwise_append.mp hpar).2.2 c hcm (l.getLast hne) (by simp)
  rw [hbl]
  exact this

lemma map_noop_versions (vs : List Int) :
    (vs.map noopMigration).map (fun mg => mg.version) = vs := by
  simp [Function.comp_def, noopMigration]

/-- One run of the revert loop on the canonical store: the reverted log
grows by a strictly decreasing sequence of versions, all above the target,
starting (when nonempty) at the entry version; a `broke` exit leaves the
stack topped by a version ≤ target and an `earlySuccess` exit leaves it
empty. -/
lemma downLoop_fake (vs : List Int) (tg : Int) :
    ∀ (fuel : Nat) (rv : Int) (s : FakeState),
      List.Pairwise (· < ·) s.versions →
      s.versions.getLast? = some rv →
      ∀ ex s', downLoop fakeStore (vs.map noopMigration) tg fuel rv s = (ex, s') →
        ((∃ Δ, s'.reverted = s.reverted ++ Δ ∧ List.Chain' (· > ·) Δ ∧
            (∀ u ∈ Δ, tg < u) ∧ (Δ = [] ∨ Δ.head? = some rv)) ∧
          (ex = .broke → ∃ r, s'.versions.getLast? = some r ∧ r ≤ tg) ∧
          (ex = .earlySuccess → s'.versions = [])) := by
  intro fuel
  induction fuel with
  | zero =>
    intro rv s hsort hlast ex s' h
    unfold downLoop at h
    split at h
    · injection h with h1 h2
      subst h1
      subst h2
      refine ⟨⟨[], by simp, by simp, by simp, Or.inl rfl⟩, ?_, by simp⟩
      intro _
      exact ⟨rv, hlast, by omega⟩
    · injection h with h1 h2
      subst h1
      subst h2
      exact ⟨⟨[], by simp, by simp, by simp, Or.inl rfl⟩, by simp, by simp⟩
  | succ n ih =>
    intro rv s hsort hlast ex s' h
    unfold downLoop at h
    split at h
    · injection h with h1 h2
      subst h1
      subst h2
      refine ⟨⟨[], by simp, by simp, by simp, Or.inl rfl⟩, ?_, by simp⟩
      intro _
      rename_i hle
      exact ⟨rv, hlast, by omega⟩
    · rename_i hgt
      simp only [map_noop_versions] at h
      rcases hbs : binarySearchFunc vs rv with ⟨idx, ok⟩
      rw [hbs] at h
      rcases ok with _ | _
      · simp only [Bool.not_false, if_true] at h
        injection h with h1 h2
        subst h1
        subst h2
        exact ⟨⟨[], by simp, by simp, by simp, Or.inl rfl⟩, by simp, by simp⟩
      · simp only [Bool.not_true, Bool.false_eq_true, if_false] at h
        have hidx : vs.findIdx (fun v => decide (rv ≤ v)) = idx :=
          congrArg Prod.fst hbs
        have hfound : vs.get? idx = some rv := by
          have hok : decide (vs.get? (vs.findIdx (fun v => decide (rv ≤ v))) =
              some rv) = true := congrArg Prod.snd hbs
          rw [← hidx]
          exact of_decide_eq_true hok
        have hsrc : (vs.map noopMigration).get? idx = some (noopMigration rv) := by
          rw [List.get?_map, hfound]
          rfl
        rw [hsrc] at h
        simp only [noop_down] at h
        have hvne : s.versions.isEmpty = false := by
          rcases hv : s.versions with _ | ⟨a, l⟩
          · rw [hv] at hlast
            simp at hlast
          · rfl
        have hrem : fakeStore.remove (noopMigration rv).version s =
            (none, { s with versions := s.versions.dropLast,
                            reverted := s.reverted ++ [rv] }) := by
          show (if s.versions.isEmpty then _ else _) = _
          rw [hvne]
          simp [noop_version]
        rw [hrem] at h
        simp only [] at h
        rcases hdl : (s.versions.dropLast).getLast? with _ | rv'
        · have hver : fakeStore.version ({ s with
                versions := s.versions.dropLast,
                reverted := s.reverted ++ [rv] }) =
              ((0, some .initialVersion),
               { s with versions := s.versions.dropLast,
                        reverted := s.reverted ++ [rv] }) := by
            simp [fakeStore, hdl]
          rw [hver] at h
          simp only [if_true] at h
          injection h with h1 h2
          subst h1
          subst h2
          refine ⟨⟨[rv], by simp, by simp, by simp; omega, Or.inr rfl⟩, by simp, ?_⟩
          intro _
          simpa using (List.getLast?_eq_none_iff.mp hdl)
        · have hver : fakeStore.version ({ s with
                versions := s.versions.dropLast,
                reverted := s.reverted ++ [rv] }) =
              ((rv', none),
               { s with versions := s.versions.dropLast,
                        reverted := s.reverted ++ [rv] }) := by
            simp [fakeStore, hdl]
          rw [hver] at h
          simp only [] at h
          have hsort' : List.Pairwise (· < ·) (s.versions.dropLast) :=
            hsort.sublist (List.dropLast_sublist _)
          have hih := ih rv' ({ s with
              versions := s.versions.dropLast,
              reverted := s.reverted ++ [rv] }) hsort' hdl ex s' h
          rcases hih with ⟨⟨Δ', hrev, hchain, hgtg, hhead⟩, hbroke, hearly⟩
          have hlt : rv' < rv := getLast_dropLast_lt hsort hlast hdl
          refine ⟨⟨rv :: Δ', ?_, ?_, ?_, Or.inr rfl⟩, hbroke, hearly⟩
          · rw [hrev]
            simp
          · rw [List.chain'_cons']
            refine ⟨?_, hchain⟩
            intro b hb
            rcases hhead with hnil | hh
            · rw [hnil] at hb
              simp at hb
            · rw [hh] at hb
              injection hb with hb
              omega
          · intro u hu
            rcases List.mem_cons.mp hu with rfl | hu'
            · omega
            · exact hgtg u hu'

/-- C6: every successful `Down(ctx, T)` on the canonical store (sorted
stack) leaves the store reporting a version ≤ T or the empty-store
`ErrInitialVersion` sentinel, and the versions reverted along the way form
a strictly decreasing sequence, each above T, as dictated by the store's
reported state after each step. -/
theorem C6_down_success_state (vs : List Int) (hold : Bool) (tg : Int)
    (fuel : Nat) (s : FakeState) (hsort : List.Pairwise (· < ·) s.versions)
    (hl : s.locked = false) :
    ∀ s', (mkFake vs hold).Down tg fuel s = some (none, s') →
      ((s'.versions.getLast? = none ∨
          ∃ r, s'.versions.getLast? = some r ∧ r ≤ tg) ∧
        ∃ Δ, s'.reverted = s.reverted ++ Δ ∧ List.Chain' (· > ·) Δ ∧
          ∀ u ∈ Δ, tg < u) := by
  intro s' h
  rcases hc : (mkFake vs hold).check with _ | e
  case some =>
    unfold Migrator.Down at h
    rw [hc] at h
    simp at h
  unfold Migrator.Down at h
  rw [hc, mkFake_store, mkFake_sources] at h
  rcases hbs : binarySearchFunc ((vs.map noopMigration).map
      (fun mg => mg.version)) tg with ⟨i0, ok⟩
  rw [hbs] at h
  dsimp only at h
  split at h
  · simp at h
  · rw [fakeStore_init] at h
    dsimp only at h
    rw [fakeStore_lock_unlocked s hl] at h
    dsimp only at h
    rcases hlast : s.versions.getLast? with _ | rv
    · have hvv : fakeStore.version ({ s with locked := true }) =
          ((0, some .initialVersion), { s with locked := true }) := by
        simp [fakeStore, hlast]
      rw [hvv] at h
      dsimp only at h
      rw [if_pos rfl, finishRelease_fake] at h
      simp only [if_true] at h
      injection h with h
      injection h with h1 h2
      subst h2
      refine ⟨Or.inl hlast, [], by simp, by simp, by simp⟩
    · have hvv : fakeStore.version ({ s with locked := true }) =
          ((rv, none), { s with locked := true }) := by
        simp [fakeStore, hlast]
      rw [hvv] at h
      dsimp only at h
      rcases hdl : downLoop fakeStore (vs.map noopMigration) tg fuel rv
          ({ s with locked := true }) with ⟨ex, w₄⟩
      rw [hdl] at h
      have hprops := downLoop_fake vs tg fuel rv ({ s with locked := true })
        (by exact hsort) (by exact hlast) ex w₄ hdl
      rcases ex with _ | _ | e' | _
      · dsimp only at h
        rw [finishRelease_fake] at h
        simp only [if_true] at h
        injection h with h
        injection h with h1 h2
        subst h2
        rcases hprops with ⟨⟨Δ, hrev, hchain, hgtg, -⟩, hbroke, -⟩
        rcases hbroke rfl with ⟨r, hr, hrle⟩
        exact ⟨Or.inr ⟨r, hr, hrle⟩, Δ, hrev, hchain, hgtg⟩
      · dsimp only at h
        rw [finishRelease_fake] at h
        rcases hprops with ⟨⟨Δ, hrev, hchain, hgtg, -⟩, -, hearly⟩
        have hvnil := hearly rfl
        cases hold
        · simp only [mkFake, Bool.not_false, if_true] at h
          injection h with h
          injection h with h1 h2
          subst h2
          exact ⟨Or.inl (by simp [hvnil]), Δ, hrev, hchain, hgtg⟩
        · simp only [mkFake, Bool.not_true, Bool.false_eq_true, if_false] at h
          injection h with h
          injection h with h1 h2
          subst h2
          exact ⟨Or.inl (by simp [hvnil]), Δ, hrev, hchain, hgtg⟩
      · dsimp only at h
        rw [finishRelease_fake] at h
        simp at h
      · dsimp only at h
        simp at h

/-- Witness for C6: store `[1,2,3]`, units `[1,2,3]`, target 1. -/
theorem C6_witness :
    ((⟨[1], [], [3,2], false⟩ : FakeState).versions.getLast? = none ∨
      ∃ r, (⟨[1], [], [3,2], false⟩ : FakeState).versions.getLast? = some r ∧
        r ≤ 1) ∧
    ∃ Δ, (⟨[1], [], [3,2], false⟩ : FakeState).reverted =
        (fakeInit [1,2,3]).reverted ++ Δ ∧
      List.Chain' (· > ·) Δ ∧ ∀ u ∈ Δ, (1 : Int) < u :=
  C6_down_success_state [1,2,3] false 1 9 (fakeInit [1,2,3]) (by decide) rfl
    ⟨[1], [], [3,2], false⟩ (by decide)

/-- Under `RemoveDecreases`, fuel `(rv - tg).toNat` suffices: the loop
never runs out. -/
lemma downLoop_fuel {ω : Type} (S : Store ω) (srcs : List (Migration ω))
    (tg : Int) (hdec : RemoveDecreases S) :
    ∀ (fuel : Nat) (rv : Int) (w : ω), (rv - tg).toNat ≤ fuel →
      (downLoop S srcs tg fuel rv w).1 ≠ .fuelOut := by
  intro fuel
  induction fuel with
  | zero =>
    intro rv w hle
    unfold downLoop
    split
    · simp
    · rename_i hgt
      exfalso
      omega
  | succ n ih =>
    intro rv w hle
    unfold downLoop
    split
    · simp
    · rename_i hgt
      dsimp only
      rcases hbs : binarySearchFunc (srcs.map fun mg => mg.version) rv with ⟨idx, ok⟩
      rw [hbs]
      dsimp only
      rcases ok with _ | _
      · simp
      · rw [if_neg (by simp)]
        rcases hg : srcs.get? idx with _ | mg
        · simp
        · dsimp only
          have hidx : (srcs.map fun mg => mg.version).findIdx
              (fun v => decide (rv ≤ v)) = idx := congrArg Prod.fst hbs
          have hok : decide ((srcs.map fun mg => mg.version).get?
              ((srcs.map fun mg => mg.version).findIdx (fun v => decide (rv ≤ v))) =
              some rv) = true := congrArg Prod.snd hbs
          have hfound : (srcs.map fun mg => mg.version).get? idx = some rv := by
            rw [← hidx]
            exact of_decide_eq_true hok
          have hmgv : mg.version = rv := by
            rw [List.get?_map, hg] at hfound
            injection hfound
          rcases hd : mg.Down w with ⟨rd, w₁⟩
          rcases rd with _ | e
          · dsimp only
            rcases hr : S.remove mg.version w₁ with ⟨rr, w₂⟩
            rcases rr with _ | e
            · dsimp only
              rcases hv : S.version w₂ with ⟨⟨v', rv'⟩, w₃⟩
              rcases rv' with _ | e
              · dsimp only
                have hlt : v' < rv := by
                  rw [← hmgv]
                  exact hdec mg.version w₁ w₂ hr v' w₃ hv
                exact ih v' w₃ (by omega)
              · dsimp only
                by_cases he : e = GoError.initialVersion
                · rw [if_pos he]
                  simp
                · rw [if_neg he]
                  simp
            · simp
          · simp

lemma stuck_loop : ∀ fuel,
    downLoop stuckStore stuckMigrator.sources (-1) fuel 1 () = (.fuelOut, ()) := by
  intro fuel
  induction fuel with
  | zero => rfl
  | succ n ih => exact ih

/-- C10: the revert loop terminates for every store satisfying the
(unchecked) `RemoveDecreases` hypothesis — some fuel makes `Down` return a
result — while for `stuckStore`, whose `Remove` leaves `Version`'s report
unchanged, `Down (-1)` exhausts every fuel: the Go loop never terminates. -/
theorem C10_down_termination :
    (∀ (ω : Type) (S : Store ω) (srcs : List (Migration ω)) (hold : Bool)
       (tg : Int) (w : ω), RemoveDecreases S →
       ∃ fuel, (⟨S, srcs, hold⟩ : Migrator ω).Down tg fuel w ≠ none) ∧
    (∀ fuel, stuckMigrator.Down (-1) fuel () = none) := by
  constructor
  · intro ω S srcs hold tg w hdec
    rcases hc : (⟨S, srcs, hold⟩ : Migrator ω).check with _ | e
    case some =>
      refine ⟨0, ?_⟩
      intro h
      unfold Migrator.Down at h
      rw [hc] at h
      simp at h
    rcases hbs : binarySearchFunc (srcs.map (fun mg => mg.version)) tg with ⟨i0, ok⟩
    by_cases hguard : (!ok) = true ∧ tg ≠ -1
    · refine ⟨0, ?_⟩
      intro h
      unfold Migrator.Down at h
      rw [hc] at h
      rw [hbs] at h
      dsimp only at h
      rw [if_pos hguard] at h
      simp at h
    · rcases hi : S.init w with ⟨ri, w₁⟩
      rcases ri with _ | e
      · rcases hk : S.lock w₁ with ⟨rk, w₂⟩
        rcases rk with _ | e
        · rcases hv : S.version w₂ with ⟨⟨v, rv⟩, w₃⟩
          rcases rv with _ | e
          · refine ⟨(v - tg).toNat, ?_⟩
            intro h
            unfold Migrator.Down at h
            rw [hc] at h
            rw [hbs] at h
            dsimp only at h
            rw [if_neg hguard, hi] at h
            dsimp only at h
            rw [hk] at h
            dsimp only at h
            rw [hv] at h
            dsimp only at h
            rcases hdl : downLoop S srcs tg ((v - tg).toNat) v w₃ with ⟨ex, w₄⟩
            rw [hdl] at h
            have hnf := downLoop_fuel S srcs tg hdec ((v - tg).toNat) v w₃ (le_refl _)
            rw [hdl] at hnf
            rcases ex with _ | _ | e' | _ <;> simp_all
          · refine ⟨0, ?_⟩
            intro h
            unfold Migrator.Down at h
            rw [hc] at h
            rw [hbs] at h
            dsimp only at h
            rw [if_neg hguard, hi] at h
            dsimp only at h
            rw [hk] at h
            dsimp only at h
            rw [hv] at h
            dsimp only at h
            by_cases he : e = GoError.initialVersion
            · rw [if_pos he] at h
              simp at h
            · rw [if_neg he] at h
              simp at h
        · refine ⟨0, ?_⟩
          intro h
          unfold Migrator.Down at h
          rw [hc] at h
          rw [hbs] at h
          dsimp only at h
          rw [if_neg hguard, hi] at h
          dsimp only at h
          rw [hk] at h
          simp at h
      · refine ⟨0, ?_⟩
        intro h
        unfold Migrator.Down at h
        rw [hc] at h
        rw [hbs] at h
        dsimp only at h
        rw [if_neg hguard, hi] at h
        simp at h
  · intro fuel
    unfold Migrator.Down
    rw [show stuckMigrator.check = none from rfl]
    rcases hbs : binarySearchFunc (stuckMigrator.sources.map
        (fun mg => mg.version)) (-1) with ⟨i0, ok⟩
    dsimp only
    rw [if_neg (by simp)]
    have h1 : stuckMigrator.store.init () = (none, ()) := rfl
    rw [h1]
    dsimp only
    have h2 : stuckMigrator.store.lock () = (none, ()) := rfl
    rw [h2]
    dsimp only
    have h3 : stuckMigrator.store.version () = ((1, none), ()) := rfl
    rw [h3]
    dsimp only
    have h4 : downLoop stuckMigrator.store stuckMigrator.sources (-1) fuel 1 () =
        (.fuelOut, ()) := stuck_loop fuel
    rw [h4]

lemma decStore_removeDecreases : RemoveDecreases decStore := by
  intro v w w₁ hr rv w₂ hv
  have h2 : w₁ = v - 1 := by
    have := congrArg Prod.snd hr
    simpa [decStore] using this.symm
  subst h2
  by_cases hneg : v - 1 < 0
  · have hvv : decStore.version (v - 1) = ((0, some .initialVersion), v - 1) := by
      simp [decStore, hneg]
    rw [hvv] at hv
    simp at hv
  · have hvv : decStore.version (v - 1) = ((v - 1, none), v - 1) := by
      simp [decStore, hneg]
    rw [hvv] at hv
    have := congrArg (fun p => p.1.1) hv
    simp at this
    omega

/-- Witness for the terminating half of C10, at `decStore` from state 5. -/
theorem C10_witness :
    ∃ fuel, (⟨decStore, [], false⟩ : Migrator Int).Down (-1) fuel 5 ≠ none :=
  C10_down_termination.1 Int decStore [] false (-1) 5 decStore_removeDecreases

lemma foldl_heldStep_neutral (b : Bool) :
    ∀ (Δ : List Ev), (∀ ev ∈ Δ, lockNeutral ev = true) →
      Δ.foldl heldStep b = b := by
  intro Δ
  induction Δ generalizing b with
  | nil => intro _; rfl
  | cons ev rest ih =>
    intro h
    have hev := h ev (List.mem_cons_self _ _)
    have hstep : heldStep b ev = b := by
      rcases ev with ok | ok | ok | ⟨v, e⟩ | ⟨v, ok⟩ | ⟨v, ok⟩
      · rfl
      · simp [lockNeutral] at hev
      · simp [lockNeutral] at hev
      · rfl
      · rfl
      · rfl
    simp only [List.foldl_cons, hstep]
    exact ih b (fun x hx => h x (List.mem_cons_of_mem _ hx))

lemma heldAfter_append (b : Bool) (t Δ : List Ev)
    (h : ∀ ev ∈ Δ, lockNeutral ev = true) :
    heldAfter b (t ++ Δ) = heldAfter b t := by
  unfold heldAfter
  rw [List.foldl_append]
  exact foldl_heldStep_neutral _ Δ h

lemma liftMig_Up {ω : Type} (mg : Migration ω) (p : ω × List Ev) :
    ∃ r w', (liftMig mg).Up p = (r, (w', p.2)) := by
  unfold liftMig Migration.Up
  rcases mg.upFunc with _ | f
  · exact ⟨_, _, rfl⟩
  · exact ⟨_, _, rfl⟩

lemma liftMig_Down {ω : Type} (mg : Migration ω) (p : ω × List Ev) :
    ∃ r w', (liftMig mg).Down p = (r, (w', p.2)) := by
  unfold liftMig Migration.Down
  rcases mg.downFunc with _ | f
  · exact ⟨_, _, rfl⟩
  · exact ⟨_, _, rfl⟩

/-- The `Up` plan loop over the traced store appends only lock-neutral
events, and fails only with an apply or insert error. -/
lemma upApply_traced {ω : Type} (S : Store ω) (rv tg : Int) :
    ∀ (srcs : List (Migration ω)) (w : ω) (t : List Ev),
      ∃ r w' Δ,
        upApply (traced S) rv tg (srcs.map liftMig) (w, t) = (r, (w', t ++ Δ)) ∧
        (∀ ev ∈ Δ, lockNeutral ev = true) ∧
        (r = none ∨ (∃ v g, r = some (.applyFailed v g)) ∨
          (∃ v g, r = some (.insertFailed v g))) := by
  intro srcs
  induction srcs with
  | nil =>
    intro w t
    exact ⟨none, w, [], by simp [upApply], by simp, Or.inl rfl⟩
  | cons mg rest ih =>
    intro w t
    simp only [List.map_cons, upApply]
    by_cases hp : (liftMig mg).version > rv ∧ (liftMig mg).version ≤ tg
    · rw [if_pos hp]
      rcases liftMig_Up mg (w, t) with ⟨r₁, w₁, hup⟩
      rw [hup]
      rcases r₁ with _ | e
      · dsimp only
        rcases hins : S.insert (liftMig mg).version w₁ with ⟨r₂, w₂⟩
        rcases r₂ with _ | e₂
        · have htr : (traced S).insert (liftMig mg).version (w₁, t) =
              (none, (w₂, t ++ [.insertE (liftMig mg).version true])) := by
            simp [traced, hins]
          rw [htr]
          dsimp only
          rcases ih w₂ (t ++ [.insertE (liftMig mg).version true]) with
            ⟨r, w', Δ', hrec, hneu, hshape⟩
          refine ⟨r, w', .insertE (liftMig mg).version true :: Δ', ?_, ?_, hshape⟩
          · rw [hrec]
            simp
          · intro ev hev
            rcases List.mem_cons.mp hev with rfl | hev'
            · rfl
            · exact hneu ev hev'
        · have htr : (traced S).insert (liftMig mg).version (w₁, t) =
              (some e₂, (w₂, t ++ [.insertE (liftMig mg).version false])) := by
            simp [traced, hins]
          rw [htr]
          dsimp only
          refine ⟨some (.insertFailed (liftMig mg).version e₂), w₂,
            [.insertE (liftMig mg).version false], rfl, ?_, ?_⟩
          · intro ev hev
            simp at hev
            subst hev
            rfl
          · exact Or.inr (Or.inr ⟨_, _, rfl⟩)
      · dsimp only
        refine ⟨some (.applyFailed (liftMig mg).version e), w₁, [], by
          rw [List.append_nil], by simp, Or.inr (Or.inl ⟨_, _, rfl⟩)⟩
    · rw [if_neg hp]
      exact ih w t

/-- The revert loop over the traced store appends only lock-neutral events;
it fails only with a missing-remote, revert, remove or version error, and a
version-error exit always follows a successful remove logged in the same
run. -/
lemma downLoop_traced {ω : Type} (S : Store ω) (srcs : List (Migration ω))
    (tg : Int) :
    ∀ (fuel : Nat) (rv : Int) (w : ω) (t : List Ev),
      ∃ ex w' Δ,
        downLoop (traced S) (srcs.map liftMig) tg fuel rv (w, t) =
          (ex, (w', t ++ Δ)) ∧
        (∀ ev ∈ Δ, lockNeutral ev = true) ∧
        (∀ e, ex = .failed e →
          ((∃ v, e = .missingRemote v) ∨ (∃ v g, e = .revertFailed v g) ∨
            (∃ v g, e = .removeFailed v g) ∨ (∃ g, e = .versionFailed g))) ∧
        (∀ g, ex = .failed (.versionFailed g) → ∃ v, Ev.removeE v true ∈ Δ) := by
  intro fuel
  induction fuel with
  | zero =>
    intro rv w t
    unfold downLoop
    by_cases hle : rv ≤ tg
    · rw [if_pos hle]
      exact ⟨.broke, w, [], by rw [List.append_nil], by simp, by simp, by simp⟩
    · rw [if_neg hle]
      exact ⟨.fuelOut, w, [], by rw [List.append_nil], by simp, by simp, by simp⟩
  | succ n ih =>
    intro rv w t
    unfold downLoop
    by_cases hle : rv ≤ tg
    · rw [if_pos hle]
      exact ⟨.broke, w, [], by rw [List.append_nil], by simp, by simp, by simp⟩
    · rw [if_neg hle]
      dsimp only
      have hmapv : (srcs.map liftMig).map (fun mg => mg.version) =
          srcs.map (fun mg => mg.version) := by
        simp [Function.comp_def, liftMig]
      rw [hmapv]
      rcases hbs : binarySearchFunc (srcs.map (fun mg => mg.version)) rv with ⟨idx, ok⟩
      rw [hbs]
      dsimp only
      rcases ok with _ | _
      · refine ⟨.failed (.missingRemote rv), w, [], by rw [List.append_nil]; rfl,
          by simp, ?_, by simp⟩
        intro e he
        injection he with he
        exact Or.inl ⟨rv, he.symm⟩
      · rw [if_neg (by simp)]
        rcases hg : (srcs.map liftMig).get? idx with _ | mg'
        · refine ⟨.failed (.missingRemote rv), w, [], by simp,
            by simp, ?_, by simp⟩
          intro e he
          injection he with he
          exact Or.inl ⟨rv, he.symm⟩
        · have hsplit : ∃ mg, srcs.get? idx = some mg ∧ mg' = liftMig mg := by
            rw [List.get?_map] at hg
            rcases h' : srcs.get? idx with _ | mg
            · rw [h'] at hg
              simp at hg
            · rw [h'] at hg
              simp at hg
              exact ⟨mg, rfl, hg.symm⟩
          rcases hsplit with ⟨mg, hmg, rfl⟩
          rcases liftMig_Down mg (w, t) with ⟨rd, w₁, hdn⟩
          dsimp only
          rw [hdn]
          rcases rd with _ | e
          · dsimp only
            rcases hrm : S.remove (liftMig mg).version w₁ with ⟨rr, w₂⟩
            rcases rr with _ | e
            · have htr : (traced S).remove (liftMig mg).version (w₁, t) =
                  (none, (w₂, t ++ [.removeE (liftMig mg).version true])) := by
                simp [traced, hrm]
              rw [htr]
              dsimp only
              rcases hv : S.version w₂ with ⟨⟨v', re⟩, w₃⟩
              rcases re with _ | g'
              · have htv : (traced S).version
                    (w₂, t ++ [.removeE (liftMig mg).version true]) =
                    ((v', none),
                     (w₃, t ++ [.removeE (liftMig mg).version true] ++
                       [.versionE v' none])) := by
                  simp [traced, hv]
                rw [htv]
                dsimp only
                rcases ih v' w₃ (t ++ [.removeE (liftMig mg).version true] ++
                    [.versionE v' none]) with ⟨ex, w', Δ', hrec, hneu, hshape, hver⟩
                refine ⟨ex, w', .removeE (liftMig mg).version true ::
                  .versionE v' none :: Δ', ?_, ?_, hshape, ?_⟩
                · rw [hrec]
                  simp
                · intro ev hev
                  rcases List.mem_cons.mp hev with rfl | hev'
                  · rfl
                  · rcases List.mem_cons.mp hev' with rfl | hev''
                    · rfl
                    · exact hneu ev hev''
                · intro g hg'
                  exact ⟨(liftMig mg).version, List.mem_cons_self _ _⟩
              · have htv : (traced S).version
                    (w₂, t ++ [.removeE (liftMig mg).version true]) =
                    ((v', some g'),
                     (w₃, t ++ [.removeE (liftMig mg).version true] ++
                       [.versionE v' (some g')])) := by
                  simp [traced, hv]
                rw [htv]
                dsimp only
                by_cases hgi : g' = GoError.initialVersion
                · rw [if_pos hgi]
                  refine ⟨.earlySuccess, w₃,
                    [.removeE (liftMig mg).version true, .versionE v' (some g')],
                    by simp, ?_, by simp, by simp⟩
                  intro ev hev
                  rcases List.mem_cons.mp hev with rfl | hev'
                  · rfl
                  · rcases List.mem_cons.mp hev' with rfl | hev''
                    · rfl
                    · simp at hev''
                · rw [if_neg hgi]
                  refine ⟨.failed (.versionFailed g'), w₃,
                    [.removeE (liftMig mg).version true, .versionE v' (some g')],
                    by simp, ?_, ?_, ?_⟩
                  · intro ev hev
                    rcases List.mem_cons.mp hev with rfl | hev'
                    · rfl
                    · rcases List.mem_cons.mp hev' with rfl | hev''
                      · rfl
                      · simp at hev''
                  · intro e he
                    injection he with he
                    exact Or.inr (Or.inr (Or.inr ⟨g', he.symm⟩))
                  · intro g hg'
                    exact ⟨(liftMig mg).version, List.mem_cons_self _ _⟩
            · have htr : (traced S).remove (liftMig mg).version (w₁, t) =
                  (some e, (w₂, t ++ [.removeE (liftMig mg).version false])) := by
                simp [traced, hrm]
              rw [htr]
              dsimp only
              refine ⟨.failed (.removeFailed (liftMig mg).version e), w₂,
                [.removeE (liftMig mg).version false], rfl, ?_, ?_, by simp⟩
              · intro ev hev
                simp at hev
                subst hev
                rfl
              · intro e' he
                injection he with he
                exact Or.inr (Or.inr (Or.inl ⟨_, _, he.symm⟩))
          · dsimp only
            refine ⟨.failed (.revertFailed (liftMig mg).version e), w₁, [],
              by rw [List.append_nil], by simp, ?_, by simp⟩
            intro e' he
            injection he with he
            exact Or.inr (Or.inl ⟨_, _, he.symm⟩)

lemma finishRelease_false {ω : Type} (S : Store ω) (pr : Option DriverErr)
    (p : ω) : finishRelease S false pr p = (pr, p) := by
  unfold finishRelease
  simp

lemma finishRelease_traced_none {ω : Type} (S : Store ω) (wv : ω) (t₀ : List Ev) :
    (∃ wr, finishRelease (traced S) true none (wv, t₀) =
      (none, (wr, t₀ ++ [.releaseE true]))) ∨
    (∃ er wr, finishRelease (traced S) true none (wv, t₀) =
      (some (.releaseFailed er), (wr, t₀ ++ [.releaseE false]))) := by
  rcases hr : S.release wv with ⟨rr, wr⟩
  rcases rr with _ | er
  · exact Or.inl ⟨wr, by simp [finishRelease, traced, hr]⟩
  · exact Or.inr ⟨er, wr, by simp [finishRelease, traced, hr]⟩

lemma finishRelease_traced_some {ω : Type} (S : Store ω) (p : DriverErr)
    (wv : ω) (t₀ : List Ev) :
    (∃ wr, finishRelease (traced S) true (some p) (wv, t₀) =
      (some p, (wr, t₀ ++ [.releaseE true]))) ∨
    (∃ er wr, finishRelease (traced S) true (some p) (wv, t₀) =
      (some (.joined p er), (wr, t₀ ++ [.releaseE false]))) := by
  rcases hr : S.release wv with ⟨rr, wr⟩
  rcases rr with _ | er
  · exact Or.inl ⟨wr, by simp [finishRelease, traced, hr]⟩
  · exact Or.inr ⟨er, wr, by simp [finishRelease, traced, hr]⟩

/-- Plan phase of `Up` with the hold policy set, entered with the lock
held: a failing step leaves the lock held, and no pre-plan error kind can
come out of it. -/
lemma upMain_traced {ω : Type} (S : Store ω) (srcs : List (Migration ω))
    (v tg : Int) (wv : ω) (t₀ : List Ev)
    (hheld : heldAfter false t₀ = true) :
    ∀ e w' t, upMain (⟨traced S, srcs.map liftMig, true⟩ :
        Migrator (ω × List Ev)) v tg (wv, t₀) = (some e, (w', t)) →
      (isPreUpErr e = true → heldAfter false t = false) ∧
      (isPostUpErr e = true → heldAfter false t = true) := by
  intro e w' t h
  unfold upMain at h
  dsimp only at h
  by_cases hemp : ((srcs.map liftMig).filter
      (fun mg => decide (mg.version > v) && decide (mg.version ≤ tg))).isEmpty
  · rw [if_pos hemp] at h
    rcases finishRelease_traced_none S wv t₀ with ⟨wr, hfin⟩ | ⟨er, wr, hfin⟩
    · rw [hfin] at h
      simp at h
    · rw [hfin] at h
      simp only [Prod.mk.injEq, Option.some.injEq] at h
      rcases h with ⟨rfl, rfl, rfl⟩
      exact ⟨fun hpre => by simp [isPreUpErr] at hpre,
             fun hpost => by simp [isPostUpErr] at hpost⟩
  · rw [if_neg hemp] at h
    simp only [Bool.not_true] at h
    rcases upApply_traced S v tg srcs wv t₀ with ⟨r, wA, Δ, hA, hneu, hshape⟩
    rw [hA] at h
    rcases r with _ | eA
    · dsimp only at h
      rcases finishRelease_traced_none S wA (t₀ ++ Δ) with ⟨wr, hfin⟩ | ⟨er, wr, hfin⟩
      · rw [hfin] at h
        simp at h
      · rw [hfin] at h
        simp only [Prod.mk.injEq, Option.some.injEq] at h
        rcases h with ⟨rfl, rfl, rfl⟩
        exact ⟨fun hpre => by simp [isPreUpErr] at hpre,
               fun hpost => by simp [isPostUpErr] at hpost⟩
    · dsimp only at h
      rw [finishRelease_false] at h
      simp only [Prod.mk.injEq, Option.some.injEq] at h
      rcases h with ⟨rfl, rfl, rfl⟩
      rcases hshape with hnone | ⟨va, ga, heq⟩ | ⟨va, ga, heq⟩
      · simp at hnone
      · injection heq with heq
        subst heq
        exact ⟨fun hpre => by simp [isPreUpErr] at hpre,
               fun _ => by rw [heldAfter_append false t₀ Δ hneu]; exact hheld⟩
      · injection heq with heq
        subst heq
        exact ⟨fun hpre => by simp [isPreUpErr] at hpre,
               fun _ => by rw [heldAfter_append false t₀ Δ hneu]; exact hheld⟩

/-- C4: with `HoldLockOnFailure = true`, classifying a failed run by the
kind of error it returns: a failure at or after the plan-execution phase
(apply, insert, missing-remote, revert, remove) leaves the invocation's
lock-held balance positive on return, while a failure before plan
execution (validation, missing target, `Init`, `Lock`) leaves it zero; a
version-read failure is pre-plan (released) exactly when no successful
`Remove` precedes it in the trace, i.e. when it is the first read rather
than an in-loop re-read.  Proved for every store, over the
event-instrumented driver run. -/
theorem C4_hold_lock_failure_phases {ω : Type} (S : Store ω)
    (srcs : List (Migration ω)) (tg : Int) (w : ω) :
    (∀ e w' t, (⟨traced S, srcs.map liftMig, true⟩ :
        Migrator (ω × List Ev)).Up tg (w, []) = (some e, (w', t)) →
      (isPreUpErr e = true → heldAfter false t = false) ∧
      (isPostUpErr e = true → heldAfter false t = true)) ∧
    (∀ fuel e w' t, (⟨traced S, srcs.map liftMig, true⟩ :
        Migrator (ω × List Ev)).Down tg fuel (w, []) =
          some (some e, (w', t)) →
      (isPreDownErr e = true → heldAfter false t = false) ∧
      (isPostDownErr e = true → heldAfter false t = true) ∧
      (∀ g, e = .versionFailed g →
        ((∀ v, Ev.removeE v true ∉ t) → heldAfter false t = false) ∧
        ((∃ v, Ev.removeE v true ∈ t) → heldAfter false t = true))) := by
  constructor
  · intro e w' t h
    unfold Migrator.Up at h
    rcases hc : (⟨traced S, srcs.map liftMig, true⟩ :
        Migrator (ω × List Ev)).check with _ | ce
    case some =>
      rw [hc] at h
      dsimp only at h
      simp only [Prod.mk.injEq, Option.some.injEq] at h
      rcases h with ⟨rfl, rfl, rfl⟩
      exact ⟨fun _ => rfl, fun hpost => by simp [isPostUpErr] at hpost⟩
    rw [hc] at h
    dsimp only at h
    rcases hi : S.init w with ⟨ri, wi⟩
    rcases ri with _ | ei
    · have hti : (traced S).init (w, ([] : List Ev)) =
          (none, (wi, [.initE true])) := by
        simp [traced, hi]
      rw [hti] at h
      dsimp only at h
      rcases hk : S.lock wi with ⟨rk, wk⟩
      rcases rk with _ | ek
      · have htk : (traced S).lock (wi, [Ev.initE true]) =
            (none, (wk, [.initE true, .lockE true])) := by
          simp [traced, hk]
        rw [htk] at h
        dsimp only at h
        rcases hv : S.version wk with ⟨⟨v, re⟩, wv⟩
        rcases re with _ | ge
        · have htv : (traced S).version (wk, [Ev.initE true, Ev.lockE true]) =
              ((v, none),
               (wv, [.initE true, .lockE true, .versionE v none])) := by
            simp [traced, hv]
          rw [htv] at h
          dsimp only at h
          exact upMain_traced S srcs v tg wv
            [Ev.initE true, Ev.lockE true, Ev.versionE v none] rfl e w' t h
        · have htv : (traced S).version (wk, [Ev.initE true, Ev.lockE true]) =
              ((v, some ge),
               (wv, [.initE true, .lockE true, .versionE v (some ge)])) := by
            simp [traced, hv]
          rw [htv] at h
          dsimp only at h
          by_cases hgi : ge = GoError.initialVersion
          · rw [if_pos hgi] at h
            exact upMain_traced S srcs v tg wv
              [Ev.initE true, Ev.lockE true, Ev.versionE v (some ge)] rfl e w' t h
          · rw [if_neg hgi] at h
            rcases finishRelease_traced_some S (.versionFailed ge) wv _ with
              ⟨wr, hfin⟩ | ⟨er, wr, hfin⟩
            · rw [hfin] at h
              simp only [Prod.mk.injEq, Option.some.injEq] at h
              rcases h with ⟨rfl, rfl, rfl⟩
              exact ⟨fun _ => rfl, fun hpost => by simp [isPostUpErr] at hpost⟩
            · rw [hfin] at h
              simp only [Prod.mk.injEq, Option.some.injEq] at h
              rcases h with ⟨rfl, rfl, rfl⟩
              exact ⟨fun hpre => by simp [isPreUpErr] at hpre,
                     fun hpost => by simp [isPostUpErr] at hpost⟩
      · have htk : (traced S).lock (wi, [Ev.initE true]) =
            (some ek, (wk, [.initE true, .lockE false])) := by
          simp [traced, hk]
        rw [htk] at h
        dsimp only at h
        simp only [Prod.mk.injEq, Option.some.injEq] at h
        rcases h with ⟨rfl, rfl, rfl⟩
        exact ⟨fun _ => rfl, fun hpost => by simp [isPostUpErr] at hpost⟩
    · have hti : (traced S).init (w, ([] : List Ev)) =
          (some ei, (wi, [.initE false])) := by
        simp [traced, hi]
      rw [hti] at h
      dsimp only at h
      simp only [Prod.mk.injEq, Option.some.injEq] at h
      rcases h with ⟨rfl, rfl, rfl⟩
      exact ⟨fun _ => rfl, fun hpost => by simp [isPostUpErr] at hpost⟩
  · intro fuel e w' t h
    unfold Migrator.Down at h
    rcases hc : (⟨traced S, srcs.map liftMig, true⟩ :
        Migrator (ω × List Ev)).check with _ | ce
    case some =>
      rw [hc] at h
      dsimp only at h
      simp only [Option.some.injEq, Prod.mk.injEq] at h
      rcases h with ⟨rfl, rfl, rfl⟩
      exact ⟨fun _ => rfl, fun hpost => by simp [isPostDownErr] at hpost,
             fun g hg => absurd hg (by simp)⟩
    rw [hc] at h
    dsimp only at h
    rcases hbs : binarySearchFunc ((srcs.map liftMig).map
        (fun mg => mg.version)) tg with ⟨i0, ok⟩
    rw [hbs] at h
    dsimp only at h
    by_cases hguard : (!ok) = true ∧ tg ≠ -1
    · rw [if_pos hguard] at h
      simp only [Option.some.injEq, Prod.mk.injEq] at h
      rcases h with ⟨rfl, rfl, rfl⟩
      exact ⟨fun _ => rfl, fun hpost => by simp [isPostDownErr] at hpost,
             fun g hg => absurd hg (by simp)⟩
    · rw [if_neg hguard] at h
      rcases hi : S.init w with ⟨ri, wi⟩
      rcases ri with _ | ei
      · have hti : (traced S).init (w, ([] : List Ev)) =
            (none, (wi, [.initE true])) := by
          simp [traced, hi]
        rw [hti] at h
        dsimp only at h
        rcases hk : S.lock wi with ⟨rk, wk⟩
        rcases rk with _ | ek
        · have htk : (traced S).lock (wi, [Ev.initE true]) =
              (none, (wk, [.initE true, .lockE true])) := by
            simp [traced, hk]
          rw [htk] at h
          dsimp only at h
          rcases hv : S.version wk with ⟨⟨v, re⟩, wv⟩
          rcases re with _ | ge
          · have htv : (traced S).version (wk, [Ev.initE true, Ev.lockE true]) =
                ((v, none),
                 (wv, [.initE true, .lockE true, .versionE v none])) := by
              simp [traced, hv]
            rw [htv] at h
            dsimp only at h
            rcases downLoop_traced S srcs tg fuel v wv
                [Ev.initE true, Ev.lockE true, Ev.versionE v none] with
              ⟨ex, wL, Δ, hL, hneu, hshape, hver⟩
            rw [hL] at h
            rcases ex with _ | _ | eL | _
            · dsimp only at h
              rcases finishRelease_traced_none S wL _ with
                ⟨wr, hfin⟩ | ⟨er, wr, hfin⟩
              · rw [hfin] at h
                simp at h
              · rw [hfin] at h
                simp only [Option.some.injEq, Prod.mk.injEq] at h
                rcases h with ⟨rfl, rfl, rfl⟩
                exact ⟨fun hpre => by simp [isPreDownErr] at hpre,
                       fun hpost => by simp [isPostDownErr] at hpost,
                       fun g hg => absurd hg (by simp)⟩
            · dsimp only at h
              simp only [Bool.not_true] at h
              rw [finishRelease_false] at h
              simp at h
            · dsimp only at h
              simp only [Bool.not_true] at h
              rw [finishRelease_false] at h
              simp only [Option.some.injEq, Prod.mk.injEq] at h
              rcases h with ⟨rfl, rfl, rfl⟩
              have hshape' := hshape eL rfl
              refine ⟨?_, ?_, ?_⟩
              · intro hpre
                exfalso
                rcases hshape' with ⟨v', hsh⟩ | ⟨v', g', hsh⟩ |
                    ⟨v', g', hsh⟩ | ⟨g', hsh⟩ <;>
                  (subst hsh; simp [isPreDownErr] at hpre)
              · intro _
                rw [heldAfter_append _ _ Δ hneu]
                rfl
              · intro g hg
                subst hg
                rcases hver g rfl with ⟨v', hvm⟩
                constructor
                · intro hnone
                  exact absurd (List.mem_append_right _ hvm) (hnone v')
                · intro _
                  rw [heldAfter_append _ _ Δ hneu]
                  rfl
            · dsimp only at h
              simp at h
          · have htv : (traced S).version (wk, [Ev.initE true, Ev.lockE true]) =
                ((v, some ge),
                 (wv, [.initE true, .lockE true, .versionE v (some ge)])) := by
              simp [traced, hv]
            rw [htv] at h
            dsimp only at h
            by_cases hgi : ge = GoError.initialVersion
            · rw [if_pos hgi] at h
              rcases finishRelease_traced_none S wv _ with
                ⟨wr, hfin⟩ | ⟨er, wr, hfin⟩
              · rw [hfin] at h
                simp at h
              · rw [hfin] at h
                simp only [Option.some.injEq, Prod.mk.injEq] at h
                rcases h with ⟨rfl, rfl, rfl⟩
                exact ⟨fun hpre => by simp [isPreDownErr] at hpre,
                       fun hpost => by simp [isPostDownErr] at hpost,
                       fun g hg => absurd hg (by simp)⟩
            · rw [if_neg hgi] at h
              rcases finishRelease_traced_some S (.versionFailed ge) wv _ with
                ⟨wr, hfin⟩ | ⟨er, wr, hfin⟩
              · rw [hfin] at h
                simp only [Option.some.injEq, Prod.mk.injEq] at h
                rcases h with ⟨rfl, rfl, rfl⟩
                refine ⟨fun hpre => by simp [isPreDownErr] at hpre,
                        fun hpost => by simp [isPostDownErr] at hpost, ?_⟩
                intro g hg
                refine ⟨fun _ => rfl, ?_⟩
                rintro ⟨v', hvm⟩
                exfalso
                simp at hvm
              · rw [hfin] at h
                simp only [Option.some.injEq, Prod.mk.injEq] at h
                rcases h with ⟨rfl, rfl, rfl⟩
                exact ⟨fun hpre => by simp [isPreDownErr] at hpre,
                       fun hpost => by simp [isPostDownErr] at hpost,
                       fun g hg => absurd hg (by simp)⟩
        · have htk : (traced S).lock (wi, [Ev.initE true]) =
              (some ek, (wk, [.initE true, .lockE false])) := by
            simp [traced, hk]
          rw [htk] at h
          dsimp only at h
          simp only [Option.some.injEq, Prod.mk.injEq] at h
          rcases h with ⟨rfl, rfl, rfl⟩
          exact ⟨fun _ => rfl, fun hpost => by simp [isPostDownErr] at hpost,
                 fun g hg => absurd hg (by simp)⟩
      · have hti : (traced S).init (w, ([] : List Ev)) =
            (some ei, (wi, [.initE false])) := by
          simp [traced, hi]
        rw [hti] at h
        dsimp only at h
        simp only [Option.some.injEq, Prod.mk.injEq] at h
        rcases h with ⟨rfl, rfl, rfl⟩
        exact ⟨fun _ => rfl, fun hpost => by simp [isPostDownErr] at hpost,
               fun g hg => absurd hg (by simp)⟩

/-- Witness for C4: a failing up action with the hold policy set leaves the
lock balance positive. -/
theorem C4_witness :
    heldAfter false [Ev.initE true, Ev.lockE true,
      Ev.versionE 0 (some .initialVersion)] = true :=
  ((C4_hold_lock_failure_phases fakeStore [failUpMigration 1] 1
      (fakeInit [])).1
    (.applyFailed 1 (.other "test up migration error")) ⟨[], [], [], true⟩
    [Ev.initE true, Ev.lockE true, Ev.versionE 0 (some .initialVersion)]
    (by decide)).2 rfl
